import Mathlib

/-!
Verification of the pigweed `pw_kernel` PMSAv7 MPU region compiler
(`src/pw_kernel/arch/arm_cortex_m/protection_v7.rs`) and the multi-ELF
system assembler (`src/pw_kernel/tooling/system_assembler.rs`).

The Rust sources are shallowly embedded: machine integers (`usize` on the
32-bit Cortex-M target, `u64` ELF fields) become `Nat` with explicit
wrap-around or panic modelling where overflow can occur; code that panics
(const-evaluation arithmetic overflow, `unreachable!`, `bail!`) returns
`Option` / `Except`.
-/

namespace Pmsa7

/-! ## PMSAv7 MPU region compiler (protection_v7.rs) -/

/-- `MAX_REGION_SIZE` from `calculate_aligned_region`: 2 GiB, SIZE field 30. -/
def MAX_REGION_SIZE : Nat := 0x80000000

/-- `PAGE_256KB` from `calculate_aligned_region`. -/
def PAGE_256KB : Nat := 0x40000

/-- One past the largest `u32`/32-bit-`usize` value; arithmetic reaching this
bound panics in Rust const evaluation. -/
def U32 : Nat := 0x100000000

/-- Embedding of `x & !(size - 1)` for a power-of-two `size`: clearing the low
`log2 size` bits of `x` is subtracting `x % size`. -/
def alignDown (x size : Nat) : Nat := x - x % size

/-- Result of `calculate_aligned_region` (struct `AlignedRegion`). -/
structure AlignedRegion where
  base : Nat
  size_field : Nat
  srd_mask : Nat
deriving DecidableEq, Repr

/-- The `while size > 1 { size >>= 1; bits += 1 }` loop of
`calculate_size_field`, with explicit fuel (the Rust loop halves `size`, so
64 iterations cover every value a 32-bit `usize` can hold). -/
def bitsLoop : Nat → Nat → Nat
  | 0, _ => 0
  | fuel + 1, size => if size > 1 then bitsLoop fuel (size / 2) + 1 else 0

/-- `MpuRegion::calculate_size_field`. -/
def calculate_size_field (size_bytes : Nat) : Nat :=
  let bits := bitsLoop 64 size_bytes
  if bits < 5 then 4 else bits - 1

/-- Outcome of the two growth loops in `calculate_aligned_region`:
`panic` models arithmetic overflow of 32-bit `usize` (a const-evaluation
panic in Rust) and, at fuel 0, the divergence of the Rust loop from the
(unreachable) zero-size states; `fallback` models the early
`return AlignedRegion { base: 0, size_field: 30, srd_mask: 0 }`. -/
inductive LoopOut (α : Type) where
  | panic : LoopOut α
  | fallback : LoopOut α
  | ok : α → LoopOut α
deriving DecidableEq, Repr

/-- The first loop of `calculate_aligned_region`:
`while region_size < requested_size { region_size *= 2; if region_size > MAX_REGION_SIZE { return fallback } }`.
Doubling from 32 exceeds `MAX_REGION_SIZE` within 27 iterations, so fuel 33
is never exhausted from the call site below. -/
def regionSizeLoop : Nat → Nat → Nat → LoopOut Nat
  | 0, _, _ => .panic
  | fuel + 1, requested_size, region_size =>
    if region_size < requested_size then
      let region_size := region_size * 2
      if region_size ≥ U32 then .panic
      else if region_size > MAX_REGION_SIZE then .fallback
      else regionSizeLoop fuel requested_size region_size
    else .ok region_size

/-- The coverage loop of `calculate_aligned_region`:
`while final_base + final_size < end { final_size *= 2; recompute base; if final_size > MAX_REGION_SIZE { return fallback } }`.
The additions and the doubling are checked against `U32` because the Rust
`usize` arithmetic panics there. -/
def coverLoop : Nat → Nat → Nat → Nat → Nat → Nat → LoopOut (Nat × Nat)
  | 0, _, _, _, _, _ => .panic
  | fuel + 1, start, endAddr, start_page, final_base, final_size =>
    if final_base + final_size ≥ U32 then .panic
    else if final_base + final_size < endAddr then
      let final_size := final_size * 2
      if final_size ≥ U32 then .panic
      else
        let candidate_base := alignDown start final_size
        let final_base := if candidate_base < start_page then start_page else candidate_base
        if final_size > MAX_REGION_SIZE then .fallback
        else coverLoop fuel start endAddr start_page final_base final_size
    else .ok (final_base, final_size)

/-- The body of the sub-region loop: bit `i` is set when sub-region `i` does
not overlap `[start, end)` (`overlaps = sub_start < end && sub_end > start`). -/
def subregion_disabled (final_base subregion_size start endAddr i : Nat) : Bool :=
  let subregion_start := final_base + i * subregion_size
  let subregion_end := subregion_start + subregion_size
  !(decide (subregion_start < endAddr) && decide (subregion_end > start))

/-- The `while i < 8` sub-region disable loop, structurally recursive on the
number of remaining iterations. -/
def srdLoop (final_base subregion_size start endAddr : Nat) : Nat → Nat → Nat → Nat
  | 0, _, acc => acc
  | n + 1, i, acc =>
    srdLoop final_base subregion_size start endAddr n (i + 1)
      (if subregion_disabled final_base subregion_size start endAddr i then
        acc ||| (1 <<< i)
      else acc)

/-- `MpuRegion::calculate_aligned_region`. `none` models a const-evaluation
panic (`end - start` underflow, or 32-bit arithmetic overflow inside the
loops). -/
def calculate_aligned_region (start endAddr : Nat) : Option AlignedRegion :=
  if endAddr < start then none
  else
    let requested_size := endAddr - start
    if requested_size ≥ MAX_REGION_SIZE then some ⟨0, 30, 0⟩
    else
      match regionSizeLoop 33 requested_size 32 with
      | .panic => none
      | .fallback => some ⟨0, 30, 0⟩
      | .ok region_size =>
        let start_page := alignDown start PAGE_256KB
        let naive_aligned_base := alignDown start region_size
        let aligned_base :=
          if naive_aligned_base < start_page then start_page else naive_aligned_base
        match coverLoop 64 start endAddr start_page aligned_base region_size with
        | .panic => none
        | .fallback => some ⟨0, 30, 0⟩
        | .ok (final_base, final_size) =>
          let size_field := calculate_size_field final_size
          let subregion_size := final_size / 8
          some ⟨final_base, size_field,
            srdLoop final_base subregion_size start endAddr 8 0 0⟩

/-- `MemoryRegionType` from the `memory_config` crate interface. -/
inductive MemoryRegionType where
  | ReadOnlyData
  | ReadWriteData
  | ReadOnlyExecutable
  | ReadWriteExecutable
  | Device
deriving DecidableEq, Repr

/-- `MemoryRegion`: a logical request. -/
structure MemoryRegion where
  ty : MemoryRegionType
  start : Nat
  endAddr : Nat
deriving DecidableEq, Repr

/-- The attribute tuple `(xn, tex, s, c, b, ap)` destructured by
`MpuRegion::from_memory_region` (the `RasrAp` variant is abstracted as a tag:
`false` = `RoAny`, `true` = `RwAny`). -/
structure MpuAttrs where
  xn : Bool
  tex : Nat
  s : Bool
  c : Bool
  b : Bool
  apRw : Bool
deriving DecidableEq, Repr

/-- The `match region.ty` of `MpuRegion::from_memory_region`. -/
def region_attributes : MemoryRegionType → MpuAttrs
  | .ReadOnlyData => ⟨true, 0b001, true, true, true, false⟩
  | .ReadWriteData => ⟨true, 0b001, false, true, true, true⟩
  | .ReadOnlyExecutable => ⟨false, 0b001, true, true, true, false⟩
  | .ReadWriteExecutable => ⟨false, 0b001, true, true, true, true⟩
  | .Device => ⟨true, 0b000, true, false, true, false⟩

/-- `MpuRegion::from_memory_region`, up to the register bit-packing (which
lives in the missing `regs` crate): the aligned region together with the
attribute tuple. -/
def from_memory_region (region : MemoryRegion) :
    Option (AlignedRegion × MpuAttrs) :=
  (calculate_aligned_region region.start region.endAddr).map
    (fun a => (a, region_attributes region.ty))

/-! ## MPU writer (`MemoryConfig::write`)

The MMIO side effects are modelled as a trace of register-write events.  The
`MPU_CTRL` register holds exactly the three PMSAv7 control bits; its
read-modify-write chains are modelled by threading the register state. -/

/-- The three fields of `MPU_CTRL` (`ENABLE`, `HFNMIENA`, `PRIVDEFENA`). -/
structure CtrlVal where
  enable : Bool
  hfnmiena : Bool
  privdefena : Bool
deriving DecidableEq, Repr

/-- An `MpuRegion` register image (`rbar`, `rasr`), kept abstract as the raw
register words. -/
structure MpuRegionRegs where
  rbar : Nat
  rasr : Nat
deriving DecidableEq, Repr

/-- One observable step of `MemoryConfig::write`. -/
inductive MpuEvent where
  | ctrlWrite : CtrlVal → MpuEvent
  | rnrWrite : Nat → MpuEvent
  | rbarWrite : Nat → MpuEvent
  | rasrWrite : Nat → MpuEvent
  | dsb : MpuEvent
  | isb : MpuEvent
deriving DecidableEq, Repr

/-- The `for (index, region) in self.mpu_regions.iter().enumerate()` loop:
`RNR ← index as u8` (hence the `% 256`; a `debug_assert!` in the source keeps
`index < 255`), then `RBAR`, then `RASR`. -/
def regionLoop : Nat → List MpuRegionRegs → List MpuEvent
  | _, [] => []
  | index, r :: rest =>
    MpuEvent.rnrWrite (index % 256) :: MpuEvent.rbarWrite r.rbar ::
      MpuEvent.rasrWrite r.rasr :: regionLoop (index + 1) rest

/-- `MemoryConfig::write`: the event trace it produces, starting from an
arbitrary current `MPU_CTRL` value `ctrl0` (each `mpu.ctrl.read()` returns
the value most recently written, threaded through). -/
def memory_config_write (ctrl0 : CtrlVal) (regions : List MpuRegionRegs) :
    List MpuEvent × CtrlVal :=
  -- mpu.ctrl.write(mpu.ctrl.read().with_enable(true)
  --   .with_hfnmiena(false).with_privdefena(true))
  let c1 : CtrlVal := { ctrl0 with enable := true, hfnmiena := false, privdefena := true }
  -- region writes
  let regionEvents := regionLoop 0 regions
  -- mpu.ctrl.write(mpu.ctrl.read().with_enable(true))
  let c2 : CtrlVal := { c1 with enable := true }
  (MpuEvent.ctrlWrite c1 :: regionEvents ++
    [MpuEvent.ctrlWrite c2, MpuEvent.dsb, MpuEvent.isb], c2)

/-- A concrete 8-entry register-image list (PMSAv7 has 8 MPU regions). -/
def exRegions : List MpuRegionRegs :=
  [⟨0x11, 0x21⟩, ⟨0x12, 0x22⟩, ⟨0x13, 0x23⟩, ⟨0x14, 0x24⟩,
   ⟨0x15, 0x25⟩, ⟨0x16, 0x26⟩, ⟨0x17, 0x27⟩, ⟨0x18, 0x28⟩]

end Pmsa7

namespace Assembler

/-! ## Multi-ELF system assembler (system_assembler.rs)

The `object::build::elf::Builder` arenas are modelled as lists whose indices
play the role of `SectionId`s; `u64` ELF fields are `Nat` with `wadd`/`wsub`
for the `wrapping_add`/`wrapping_sub` operations the source uses. -/

/-- `2^64`: the modulus of the `u64` ELF fields. -/
def U64 : Nat := 2 ^ 64

/-- `u64::wrapping_add`. -/
def wadd (a b : Nat) : Nat := (a + b) % U64

/-- `u64::wrapping_sub` (for operands already reduced below `2^64`). -/
def wsub (a b : Nat) : Nat := (a + (U64 - b % U64)) % U64

/-- Section payloads (`object::build::elf::SectionData`): `raw` is
`SectionData::Data`, `uninit` is `UninitializedData`, `attributes` carries
the section-id tags that need remapping, `marker` stands for the no-payload
variants (`SectionString`, `Symbol`, ..., `GnuVerneed`), and `unsupportedData`
for any variant hitting the `unreachable!` arm of `copy_section`. -/
inductive SectionData where
  | raw : List Nat → SectionData
  | uninit : Nat → SectionData
  | attributes : List Nat → SectionData
  | marker : SectionData
  | unsupportedData : SectionData
deriving DecidableEq, Repr

/-- An ELF section as held by the builder. -/
structure Section where
  name : String
  sh_type : Nat
  sh_flags : Nat
  sh_addr : Nat
  sh_offset : Nat
  sh_size : Nat
  sh_link_section : Option Nat
  sh_info_section : Option Nat
  sh_addralign : Nat
  sh_entsize : Nat
  data : SectionData
deriving DecidableEq, Repr

/-- Placeholder used for out-of-range arena lookups (the source would panic;
the theorems only apply these lookups at valid indices). -/
def dfltSection : Section :=
  { name := "", sh_type := 0, sh_flags := 0, sh_addr := 0, sh_offset := 0,
    sh_size := 0, sh_link_section := none, sh_info_section := none,
    sh_addralign := 0, sh_entsize := 0, data := SectionData.marker }

/-- `Section::is_alloc` (the `SHF_ALLOC` flag, bit 1). -/
def Section.is_alloc (s : Section) : Bool := s.sh_flags &&& 0x2 != 0

/-- Structural prefix test on character lists: models `str::starts_with`
(Lean's own `String.startsWith` is defined by well-founded recursion on byte
positions, which blocks kernel evaluation; this structural version agrees
with it and evaluates). -/
def charsPrefix : List Char → List Char → Bool
  | [], _ => true
  | _ :: _, [] => false
  | c :: cs, d :: ds => c == d && charsPrefix cs ds

/-- `str::starts_with` on the underlying character lists. -/
def strStartsWith (s pre : String) : Bool := charsPrefix pre.data s.data

/-- `SystemImage::is_tokenizer_section`. -/
def is_tokenizer_section (s : Section) : Bool :=
  if s.is_alloc then false else strStartsWith s.name ".pw_tokenizer."

/-- `SKIPPED_APP_SECTIONS`. -/
def SKIPPED_APP_SECTIONS : List String := [".symtab", ".shstrtab", ".strtab"]

/-- An ELF program segment as held by the builder. -/
structure Segment where
  p_type : Nat
  p_flags : Nat
  p_align : Nat
  p_vaddr : Nat
  p_paddr : Nat
  sections : List Nat
deriving DecidableEq, Repr

/-- `PT_LOAD`. -/
def PT_LOAD : Nat := 1

/-- `Segment::is_load`. -/
def Segment.is_load (g : Segment) : Bool := g.p_type == PT_LOAD

/-- `STB_GLOBAL`. -/
def STB_GLOBAL : Nat := 1

/-- An ELF symbol as held by the builder (the `section` field is named
`sectionRef` because `section` is a Lean keyword). -/
structure Symbol where
  name : String
  sectionRef : Option Nat
  st_value : Nat
  st_info : Nat
  st_other : Nat
  st_shndx : Nat
  st_size : Nat
  version : Nat
  version_hidden : Bool
deriving DecidableEq, Repr

/-- `Symbol::st_bind`: the high nibble of `st_info`. -/
def Symbol.st_bind (s : Symbol) : Nat := s.st_info / 16

/-- `object::build::elf::Builder`: the three arenas the assembler touches. -/
structure Builder where
  sections : List Section
  segments : List Segment
  symbols : List Symbol
deriving DecidableEq, Repr

/-- `SystemImage`. -/
structure SystemImage where
  builder : Builder
  tokenized_section : Option Nat
deriving DecidableEq, Repr

/-- The per-app `HashMap<usize, SectionId>`; keys (source arena indices) are
inserted at most once per merge, so an association list is equivalent. -/
abbrev SectionMap := List (Nat × Nat)

/-- Lookup in the section map. -/
def SectionMap.find (m : SectionMap) (k : Nat) : Option Nat :=
  (m.find? (fun p => p.1 == k)).map (fun p => p.2)

/-- `SystemImage::get_mapped_section_id` (via
`get_mapped_section_id_from_index`): `bail!("No mapping for ...")` when the
map has no entry. -/
def get_mapped_section_id (section_map : SectionMap) (id : Nat) :
    Except String (Option Nat) :=
  match section_map.find id with
  | some mapped_id => Except.ok (some mapped_id)
  | none => Except.error ("No mapping for " ++ toString id)

/-- The section-id remap inside `copy_section_attributes`; the source calls
`get_mapped_section_id(..).unwrap().expect(..)`, i.e. panics when a tag
references an unmapped section. -/
def remapTagIds (section_map : SectionMap) : List Nat → Except String (List Nat)
  | [] => Except.ok []
  | i :: rest =>
    match section_map.find i with
    | some v => do
        let r ← remapTagIds section_map rest
        Except.ok (v :: r)
    | none => Except.error "Section attribute copy"

/-- `SystemImage::copy_section`: copy every header field and deep-copy the
payload (with the attribute-tag remap); the caller has already chosen the
destination name. -/
def copy_section (section_map : SectionMap) (src : Section) (dstName : String) :
    Except String Section := do
  let data ←
    match src.data with
    | SectionData.raw bytes => Except.ok (SectionData.raw bytes)
    | SectionData.uninit n => Except.ok (SectionData.uninit n)
    | SectionData.attributes tagIds => do
        let ids ← remapTagIds section_map tagIds
        Except.ok (SectionData.attributes ids)
    | SectionData.marker => Except.ok SectionData.marker
    | SectionData.unsupportedData => Except.error "Unsupported section data type"
  Except.ok
    { name := dstName, sh_type := src.sh_type, sh_flags := src.sh_flags,
      sh_addr := src.sh_addr, sh_offset := src.sh_offset, sh_size := src.sh_size,
      sh_link_section := src.sh_link_section, sh_info_section := src.sh_info_section,
      sh_addralign := src.sh_addralign, sh_entsize := src.sh_entsize, data := data }

/-- `SystemImage::update_tokenized_section`: when a survivor exists, append
the new tokenizer bytes to it (`unreachable!` unless both payloads are
`Data`), map the source id to the survivor, and report `false`; otherwise
report `true` (the caller adds the section itself). -/
def update_tokenized_section (secs : List Section) (tok : Option Nat)
    (section_map : SectionMap) (src : Section) (srcId : Nat) :
    Except String (Bool × List Section × SectionMap) :=
  match tok with
  | some tokenized_section_id =>
    let t := secs.getD tokenized_section_id dfltSection
    match t.data, src.data with
    | SectionData.raw dataBytes, SectionData.raw newBytes =>
      let t' := { t with
        sh_size := t.sh_size + src.sh_size
        data := SectionData.raw (dataBytes ++ newBytes) }
      Except.ok (false, secs.set tokenized_section_id t',
        section_map ++ [(srcId, tokenized_section_id)])
    | _, _ => Except.error "Incorrect data type"
  | none => Except.ok (true, secs, section_map)

/-- State threaded through the section loop of `add_app_sections`. -/
structure MergeSt where
  secs : List Section
  tok : Option Nat
  map : SectionMap
  fixups : List Nat
deriving DecidableEq, Repr

/-- One iteration of the `for section in &app.sections` loop of
`add_app_sections`. -/
def stepSection (appName : String) (st : MergeSt) (srcId : Nat) (s : Section) :
    Except String MergeSt := do
  let is_tokenizer := is_tokenizer_section s
  let (add_tokenizer_section, secs, map) ←
    if is_tokenizer then update_tokenized_section st.secs st.tok st.map s srcId
    else pure (false, st.secs, st.map)
  if is_tokenizer && !add_tokenizer_section then
    -- a survivor already existed; bytes were appended above, no new section
    Except.ok { st with secs := secs, map := map }
  else if SKIPPED_APP_SECTIONS.contains s.name then
    Except.ok { st with secs := secs, map := map }
  else
    let newId := secs.length
    let map := map ++ [(srcId, newId)]
    let tok := if add_tokenizer_section then some newId else st.tok
    -- tokenizer sections keep their name; everything else is renamed
    let dstName := if add_tokenizer_section then s.name else s.name ++ "." ++ appName
    let fixups :=
      if s.sh_link_section.isSome || s.sh_info_section.isSome then st.fixups ++ [newId]
      else st.fixups
    let dst ← copy_section map s dstName
    Except.ok { secs := secs ++ [dst], tok := tok, map := map, fixups := fixups }

/-- The section loop, with `srcId` tracking the source arena index. -/
def goSections (appName : String) : Nat → List Section → MergeSt →
    Except String MergeSt
  | _, [], st => Except.ok st
  | i, s :: rest, st => do
    let st' ← stepSection appName st i s
    goSections appName (i + 1) rest st'

/-- The per-section fix-up of `sh_link_section` / `sh_info_section`. -/
def applyFixup (section_map : SectionMap) (secs : List Section) (sectionId : Nat) :
    Except String (List Section) := do
  let s := secs.getD sectionId dfltSection
  let s ←
    match s.sh_link_section with
    | some id => do
        let m ← get_mapped_section_id section_map id
        pure { s with sh_link_section := m }
    | none => pure s
  let s ←
    match s.sh_info_section with
    | some id => do
        let m ← get_mapped_section_id section_map id
        pure { s with sh_info_section := m }
    | none => pure s
  Except.ok (secs.set sectionId s)

/-- The `for section_id in sections_for_fixup` loop. -/
def fixupPass (section_map : SectionMap) : List Nat → List Section →
    Except String (List Section)
  | [], secs => Except.ok secs
  | id :: rest, secs => do
    fixupPass section_map rest (← applyFixup section_map secs id)

/-- `SystemImage::add_app_sections` (also returning the per-app section map,
which the source threads by `&mut` reference). -/
def add_app_sections (img : SystemImage) (app : Builder) (appName : String) :
    Except String (SystemImage × SectionMap) := do
  let st ← goSections appName 0 app.sections
    { secs := img.builder.sections, tok := img.tokenized_section, map := [], fixups := [] }
  let secs ← fixupPass st.map st.fixups st.secs
  Except.ok
    ({ builder := { img.builder with sections := secs }, tokenized_section := st.tok },
     st.map)

/-- One `for section_id in &segment.sections` iteration of
`add_app_segments`: save the source section's address, run the external
crate's `append_section` (modelled by the arbitrary recomputation `recalc`),
then restore the saved address. -/
def stepSegmentSection (recalc : Segment → Section → Nat) (app : Builder)
    (section_map : SectionMap) (acc : List Section × Segment) (section_id : Nat) :
    Except String (List Section × Segment) := do
  let (secs, new_segment) := acc
  let original_section := app.sections.getD section_id dfltSection
  let original_addr := original_section.sh_addr
  let mapped_section_id ← get_mapped_section_id section_map section_id
  match mapped_section_id with
  | some did =>
    let sec := secs.getD did dfltSection
    -- Modelled from the spec: `append_section` recomputes the section's
    -- `sh_addr` from the segment's `p_vaddr` and the section's offset within
    -- the segment (abstracted as `recalc`) and records the section id.
    let sec := { sec with sh_addr := recalc new_segment sec }
    let new_segment := { new_segment with sections := new_segment.sections ++ [did] }
    -- restore the original section address
    let sec := { sec with sh_addr := original_addr }
    Except.ok (secs.set did sec, new_segment)
  | none => Except.error "unwrap on None"

/-- The inner section loop of one load segment. -/
def goSegmentSections (recalc : Segment → Section → Nat) (app : Builder)
    (section_map : SectionMap) : List Nat → List Section × Segment →
    Except String (List Section × Segment)
  | [], acc => Except.ok acc
  | sid :: rest, acc => do
    goSegmentSections recalc app section_map rest
      (← stepSegmentSection recalc app section_map acc sid)

/-- One iteration of the `for segment in &app.segments` loop of
`add_app_segments`.  `add_load_segment` (external crate) creates the segment
from `p_flags`/`p_align`; whatever addresses it picks are immediately
overwritten with the source values, so they are modelled as 0. -/
def stepSegment (recalc : Segment → Section → Nat) (app : Builder)
    (section_map : SectionMap) (acc : List Section × List Segment)
    (segment : Segment) : Except String (List Section × List Segment) :=
  if !segment.is_load then Except.ok acc
  else do
    let new_segment : Segment :=
      { p_type := PT_LOAD, p_flags := segment.p_flags, p_align := segment.p_align,
        p_vaddr := 0, p_paddr := 0, sections := [] }
    let new_segment :=
      { new_segment with p_paddr := segment.p_paddr, p_vaddr := segment.p_vaddr }
    let (secs, new_segment) ←
      goSegmentSections recalc app section_map segment.sections (acc.1, new_segment)
    Except.ok (secs, acc.2 ++ [new_segment])

/-- The segment loop. -/
def goSegments (recalc : Segment → Section → Nat) (app : Builder)
    (section_map : SectionMap) : List Segment → List Section × List Segment →
    Except String (List Section × List Segment)
  | [], acc => Except.ok acc
  | g :: rest, acc => do
    goSegments recalc app section_map rest (← stepSegment recalc app section_map acc g)

/-- `SystemImage::add_app_segments`. -/
def add_app_segments (recalc : Segment → Section → Nat) (b : Builder)
    (app : Builder) (section_map : SectionMap) : Except String Builder := do
  let (secs, segs) ← goSegments recalc app section_map app.segments (b.sections, b.segments)
  Except.ok { b with sections := secs, segments := segs }

/-- The `for old_section in &app.sections` scan for symbols without an
associated section: find the first allocatable, non-empty section whose
`[sh_addr, sh_addr + sh_size)` range (wrapping) contains the value, translate
through it, and stop (`break`). -/
def scanAbsolute (section_map : SectionMap) (secs : List Section)
    (st_value : Nat) : Nat → List Section → Except String Nat
  | _, [] => Except.ok st_value
  | idx, old_section :: rest =>
    if !old_section.is_alloc then scanAbsolute section_map secs st_value (idx + 1) rest
    else
      let start := old_section.sh_addr
      let size := old_section.sh_size
      if size == 0 then scanAbsolute section_map secs st_value (idx + 1) rest
      else
        let endAddr := wadd start size
        let addr := st_value
        if addr < start || addr ≥ endAddr then
          scanAbsolute section_map secs st_value (idx + 1) rest
        else do
          let new_section_id ← get_mapped_section_id section_map idx
          match new_section_id with
          | some new_id =>
            let new_section := secs.getD new_id dfltSection
            Except.ok (wadd new_section.sh_addr (wsub addr start))
          | none => Except.ok st_value

/-- One iteration of the `for symbol in &app.symbols` loop of
`add_app_symbols`.  `symbols.add()` starts from the default symbol, so only
the fields assigned by the source change; in particular a non-global symbol
keeps the default (empty) name. -/
def stepSymbol (app : Builder) (appName : String) (section_map : SectionMap)
    (secs : List Section) (symbol : Symbol) : Except String Symbol := do
  let name :=
    if symbol.st_bind == STB_GLOBAL then symbol.name ++ "_" ++ appName else ""
  match symbol.sectionRef with
  | some old_section_id => do
    let new_section_id ← get_mapped_section_id section_map old_section_id
    let st_value ←
      match new_section_id with
      | some new_id =>
        let old_section := app.sections.getD old_section_id dfltSection
        let new_section := secs.getD new_id dfltSection
        let offset_in_section := wsub symbol.st_value old_section.sh_addr
        pure (wadd new_section.sh_addr offset_in_section)
      | none => pure symbol.st_value
    Except.ok
      { name := name, sectionRef := new_section_id, st_value := st_value,
        st_info := symbol.st_info, st_other := symbol.st_other,
        st_shndx := symbol.st_shndx, st_size := symbol.st_size,
        version := symbol.version, version_hidden := symbol.version_hidden }
  | none => do
    let new_value ← scanAbsolute section_map secs symbol.st_value 0 app.sections
    Except.ok
      { name := name, sectionRef := none, st_value := new_value,
        st_info := symbol.st_info, st_other := symbol.st_other,
        st_shndx := symbol.st_shndx, st_size := symbol.st_size,
        version := symbol.version, version_hidden := symbol.version_hidden }

/-- The symbol loop. -/
def goSymbols (app : Builder) (appName : String) (section_map : SectionMap)
    (secs : List Section) : List Symbol → Except String (List Symbol)
  | [] => Except.ok []
  | s :: rest => do
    let s' ← stepSymbol app appName section_map secs s
    let rest' ← goSymbols app appName section_map secs rest
    Except.ok (s' :: rest')

/-- `SystemImage::add_app_symbols`. -/
def add_app_symbols (b : Builder) (app : Builder) (appName : String)
    (section_map : SectionMap) : Except String Builder := do
  let newSyms ← goSymbols app appName section_map b.sections app.symbols
  Except.ok { b with symbols := b.symbols ++ newSyms }

/-- `SystemImage::add_app_image` (also exposing the per-app section map for
the statements below; the source discards it at the app boundary). -/
def add_app_image (recalc : Segment → Section → Nat) (img : SystemImage)
    (app : Builder) (appName : String) :
    Except String (SystemImage × SectionMap) := do
  let (img, section_map) ← add_app_sections img app appName
  let b ← add_app_segments recalc img.builder app section_map
  let b ← add_app_symbols b app appName section_map
  Except.ok ({ builder := b, tokenized_section := img.tokenized_section }, section_map)

/-- The scan in `SystemImage::set_tokenized_section`: index of the first
tokenizer section. -/
def findTok : Nat → List Section → Option Nat
  | _, [] => none
  | i, s :: rest => if is_tokenizer_section s then some i else findTok (i + 1) rest

/-- `SystemImage::new`. -/
def newSystemImage (kernel : Builder) : SystemImage :=
  { builder := kernel, tokenized_section := findTok 0 kernel.sections }

/-- The character sanitation of `get_app_name`: Rust
`char::is_alphanumeric` is modelled by `Char.isAlphanum` (they agree on the
ASCII file stems this tool sees). -/
def sanitizeChar (c : Char) : Char :=
  if c.isAlphanum || c == '_' then c else '_'

/-- `get_app_name`, applied to the file stem (the `file_stem in
`get_app_name` is extracted by `std::path` outside this model). -/
def get_app_name (stem : String) (index : Nat) : String :=
  let valid_name := stem.data.foldl (fun acc c => acc.push (sanitizeChar c)) ""
  valid_name ++ "_" ++ toString index

/-- The `for (index, app) in args.apps.iter().enumerate()` loop of
`assemble`. -/
def assembleLoop (recalc : Segment → Section → Nat) :
    Nat → SystemImage → List (Builder × String) → Except String SystemImage
  | _, img, [] => Except.ok img
  | index, img, (app, stem) :: rest => do
    let app_name := get_app_name stem index
    let (img, _) ← add_app_image recalc img app app_name
    assembleLoop recalc (index + 1) img rest

/-- `assemble`: parse the kernel, then merge each app in order (apps are
given as already-parsed builders plus their path file stems; file I/O is
outside the model). -/
def assemble (recalc : Segment → Section → Nat) (kernel : Builder)
    (apps : List (Builder × String)) : Except String SystemImage :=
  assembleLoop recalc 0 (newSystemImage kernel) apps

/-! ### Concrete inputs used to evaluate the model -/

/-- A concrete `append_section` address recomputation: the spec's
`p_vaddr + offset_within_segment` with the offset taken as the section's
file offset. -/
def recalcVaddr : Segment → Section → Nat := fun g s => wadd g.p_vaddr s.sh_offset

/-- An ELF with no sections, segments or symbols. -/
def exEmptyKernel : Builder := ⟨[], [], []⟩

/-- A local (binding 0) symbol named `foo`, not attached to any section. -/
def exLocalSym : Symbol :=
  { name := "foo", sectionRef := none, st_value := 0, st_info := 0, st_other := 0,
    st_shndx := 0, st_size := 0, version := 0, version_hidden := false }

/-- An app containing only the local symbol `foo`. -/
def exAppLocal : Builder := ⟨[], [], [exLocalSym]⟩

/-- A non-allocatable tokenizer section with the given payload. -/
def exTokSec (bytes : List Nat) : Section :=
  { name := ".pw_tokenizer.entries", sh_type := 1, sh_flags := 0, sh_addr := 0,
    sh_offset := 0, sh_size := bytes.length, sh_link_section := none,
    sh_info_section := none, sh_addralign := 1, sh_entsize := 0,
    data := SectionData.raw bytes }

/-- A kernel that already carries two tokenizer sections. -/
def exKernelTwoTok : Builder := ⟨[exTokSec [1], exTokSec [2]], [], []⟩

/-- A kernel with a single two-byte tokenizer section. -/
def exKernelOneTok : Builder := ⟨[exTokSec [1, 2]], [], []⟩

/-- An app with a single one-byte tokenizer section. -/
def exAppTok : Builder := ⟨[exTokSec [3]], [], []⟩

/-- An allocatable code section at `0x40420`, offset `0x420` into its
segment's file image. -/
def exCodeSec : Section :=
  { name := ".code", sh_type := 1, sh_flags := 6, sh_addr := 0x40420,
    sh_offset := 0x420, sh_size := 0x100, sh_link_section := none,
    sh_info_section := none, sh_addralign := 4, sh_entsize := 0,
    data := SectionData.raw [0, 0] }

/-- A load segment at `p_vaddr = p_paddr = 0x40000` holding `exCodeSec`. -/
def exLoadSeg : Segment :=
  { p_type := 1, p_flags := 5, p_align := 0x1000, p_vaddr := 0x40000,
    p_paddr := 0x40000, sections := [0] }

/-- The global (binding 1, `st_info = 0x10`) entry symbol `_start` at
`0x40420` inside section 0. -/
def exGlobalSym : Symbol :=
  { name := "_start", sectionRef := some 0, st_value := 0x40420, st_info := 0x10,
    st_other := 0, st_shndx := 1, st_size := 4, version := 0, version_hidden := false }

/-- An absolute symbol (no section) whose value `0x40480` lies inside
`exCodeSec`. -/
def exAbsSym : Symbol :=
  { name := "__sdata", sectionRef := none, st_value := 0x40480, st_info := 0,
    st_other := 0, st_shndx := 0, st_size := 0, version := 0, version_hidden := false }

/-- An app exercising sections, segments and both symbol kinds. -/
def exApp : Builder := ⟨[exCodeSec], [exLoadSeg], [exGlobalSym, exAbsSym]⟩

/-- A symbol attached to source section 3 (which will have no mapping). -/
def exDanglingSym : Symbol :=
  { name := "bad", sectionRef := some 3, st_value := 0, st_info := 0, st_other := 0,
    st_shndx := 0, st_size := 0, version := 0, version_hidden := false }

/-- An app whose only symbol references an unmapped section. -/
def exAppDangling : Builder := ⟨[], [], [exDanglingSym]⟩

/-! ### Statement vocabulary for the theorems below -/

/-- Placeholder used for out-of-range symbol-arena lookups. -/
def dfltSymbol : Symbol := ⟨"", none, 0, 0, 0, 0, 0, 0, false⟩

/-- The containment test of the absolute-symbol scan: allocatable, non-empty
and `sh_addr ≤ v < sh_addr + sh_size` (wrapping end, as in the source). -/
def hitsSection (v : Nat) (sec : Section) : Prop :=
  sec.is_alloc = true ∧ sec.sh_size ≠ 0 ∧ sec.sh_addr ≤ v ∧
    v < wadd sec.sh_addr sec.sh_size

/-- The payload bytes of a `Data` section (empty for the other variants). -/
def rawBytes : SectionData → List Nat
  | SectionData.raw bs => bs
  | _ => []

/-- The tokenizer sections of a builder, in arena order. -/
def tokSections (b : Builder) : List Section :=
  b.sections.filter (fun s => is_tokenizer_section s)

/-- The concatenation of the tokenizer payloads of a builder. -/
def tokConcat (b : Builder) : List Nat :=
  (tokSections b).flatMap (fun s => rawBytes s.data)

/-- The total `sh_size` of the tokenizer sections of a builder. -/
def tokSizeSum (b : Builder) : Nat :=
  ((tokSections b).map (fun s => s.sh_size)).sum

/-- Proof-internal invariant of the section-merge loop over an app `a`:
(1) every map value is a valid destination index; (2) the survivor index is
valid; (3) a mapping not aimed at the survivor points at a copy whose
`sh_addr` equals the source's; (4) map values are injective except at the
survivor; (5) only tokenizer sources map to the survivor. -/
def SecInv (a : Builder) (st : MergeSt) : Prop :=
  (∀ p ∈ st.map, p.2 < st.secs.length) ∧
  (∀ t, st.tok = some t → t < st.secs.length) ∧
  (∀ p ∈ st.map, st.tok ≠ some p.2 →
    (st.secs.getD p.2 dfltSection).sh_addr =
      (a.sections.getD p.1 dfltSection).sh_addr) ∧
  (∀ p ∈ st.map, ∀ q ∈ st.map, p.2 = q.2 → p.1 ≠ q.1 → st.tok = some p.2) ∧
  (∀ p ∈ st.map, st.tok = some p.2 →
    is_tokenizer_section (a.sections.getD p.1 dfltSection) = true)

/-- The tokenizer payload bytes of a list of sections, in order. -/
def tokBytesList (l : List Section) : List Nat :=
  (l.filter (fun s => is_tokenizer_section s)).flatMap (fun s => rawBytes s.data)

/-- The total tokenizer `sh_size` of a list of sections. -/
def tokSizeList (l : List Section) : Nat :=
  ((l.filter (fun s => is_tokenizer_section s)).map (fun s => s.sh_size)).sum

/-- Tokenizer bookkeeping invariant over a section arena `secs` with survivor
pointer `tok`: when no survivor is recorded there is no tokenizer section at
all (and nothing has been accumulated); when `tok = some t`, index `t` is the
unique tokenizer section, holding the accumulated bytes `D` and total size
`S`. -/
def TokView (secs : List Section) (tok : Option Nat) (D : List Nat) (S : Nat) :
    Prop :=
  (tok = none →
    (∀ j, j < secs.length →
      is_tokenizer_section (secs.getD j dfltSection) = false) ∧
    D = [] ∧ S = 0) ∧
  (∀ t, tok = some t →
    t < secs.length ∧
    is_tokenizer_section (secs.getD t dfltSection) = true ∧
    rawBytes (secs.getD t dfltSection).data = D ∧
    (secs.getD t dfltSection).sh_size = S ∧
    (∀ j, j < secs.length → j ≠ t →
      is_tokenizer_section (secs.getD j dfltSection) = false))

/-- `TokView` lifted to a system image. -/
def TokImg (img : SystemImage) (D : List Nat) (S : Nat) : Prop :=
  TokView img.builder.sections img.tokenized_section D S

end Assembler

/-!
# Theorems

One theorem (plus witness / counterexample where required) per claim,
preceded by helper lemmas shared between claims.
-/

namespace Pmsa7

/-- **C1.** The claim asserts that the emitted base is always a multiple of
the region size.  The code violates this: for `start = 0x40420`,
`end = 0xA0420` (request `0x60000`, region size `2^19 = 0x80000`) the naive
base `0` is below the 256 KiB page `0x40000`, so the cross-boundary guard
substitutes `0x40000` — which is not a multiple of `0x80000`, contradicting
the natural-alignment requirement PMSAv7 imposes (and which the code's own
comment states). -/
theorem C1_guard_breaks_alignment :
    calculate_aligned_region 0x40420 0xA0420 = some ⟨0x40000, 18, 0x80⟩ ∧
      ¬ (2 ^ (18 + 1) ∣ 0x40000) := by
  constructor
  · decide
  · decide

/-- **C5 (counterexample).** The claim says every region with `end ≤ start`
fails with an `InvalidRegion` error; but at `end = start` the compiler
happily produces a region (all eight sub-regions disabled), and no
`InvalidRegion` error exists anywhere in the code. -/
theorem C5_counterexample :
    from_memory_region ⟨MemoryRegionType.ReadWriteData, 0x1000, 0x1000⟩ =
      some (⟨0x1000, 4, 0xFF⟩, ⟨true, 1, false, true, true, true⟩) := by
  decide

/-- **C5 (amended).** For `end < start` the `end - start` subtraction
underflows, so const evaluation panics (modelled as `none`) — there is no
`InvalidRegion` error value; and for `end = start` no failure occurs at all:
a region with `srd_mask = 0xFF` (every sub-region disabled) is produced. -/
theorem C5_amended :
    (∀ s e, e < s → calculate_aligned_region s e = none) ∧
      from_memory_region ⟨MemoryRegionType.ReadWriteData, 0x1000, 0x1000⟩ =
        some (⟨0x1000, 4, 0xFF⟩, ⟨true, 1, false, true, true, true⟩) := by
  constructor
  · intro s e h
    unfold calculate_aligned_region
    rw [if_pos h]
  · decide

/-- **C5 (witness).** The amended theorem applied at `start = 5`, `end = 3`. -/
theorem C5_witness : calculate_aligned_region 5 3 = none :=
  C5_amended.1 5 3 (by decide)

/-- **C8.** Any request of `2^31` bytes or more takes the early-return path
and yields `base = 0`, `size_field = 30`, `srd_mask = 0`; in particular the
single region `(ReadWriteExecutable, 0x00000000, 0xFFFFFFFF)` from which
`KERNEL_THREAD_MEMORY_CONFIG` is built compiles to exactly that image. -/
theorem C8_max_region :
    (∀ s e, 2 ^ 31 ≤ e - s → calculate_aligned_region s e = some ⟨0, 30, 0⟩) ∧
      calculate_aligned_region 0x00000000 0xFFFFFFFF = some ⟨0, 30, 0⟩ := by
  constructor
  · intro s e h
    have h1 : ¬ e < s := by omega
    have h2 : MAX_REGION_SIZE ≤ e - s := by
      have : MAX_REGION_SIZE = 2 ^ 31 := by norm_num [MAX_REGION_SIZE]
      omega
    unfold calculate_aligned_region
    rw [if_neg h1, if_pos h2]
  · decide

/-- **C8 (witness).** The general statement applied at the kernel
thread-config request `[0, 2^31)`. -/
theorem C8_witness : calculate_aligned_region 0 0x80000000 = some ⟨0, 30, 0⟩ :=
  C8_max_region.1 0 0x80000000 (by norm_num)

end Pmsa7

namespace Pmsa7

/-- The region loop emits, for every index in order, the `RNR`/`RBAR`/`RASR`
triple (no truncation occurs while the running index stays below 256). -/
theorem regionLoop_eq (regions : List MpuRegionRegs) :
    ∀ index : Nat, index + regions.length ≤ 256 →
      regionLoop index regions =
        (List.range regions.length).flatMap (fun i =>
          [MpuEvent.rnrWrite (index + i),
           MpuEvent.rbarWrite ((regions.getD i ⟨0, 0⟩).rbar),
           MpuEvent.rasrWrite ((regions.getD i ⟨0, 0⟩).rasr)]) := by
  induction regions with
  | nil => intro index _; simp [regionLoop]
  | cons r rest ih =>
    intro index h
    have hmod : index % 256 = index := Nat.mod_eq_of_lt (by simp at h; omega)
    rw [regionLoop, hmod, ih (index + 1) (by simp at h ⊢; omega)]
    rw [List.length_cons, List.range_succ_eq_map]
    rw [List.flatMap_cons, List.flatMap_map]
    simp only [List.getD_cons_zero, List.getD_cons_succ, Nat.succ_eq_add_one]
    have harg : ∀ i : Nat, index + 1 + i = index + (i + 1) := by omega
    simp only [harg, Nat.add_zero]
    rfl

/-- **C7.** `MemoryConfig::write` produces exactly: one `MPU_CTRL` write with
`ENABLE=1, HFNMIENA=0, PRIVDEFENA=1`; then for each region index in
increasing order `RNR ← i`, `RBAR ← regions[i].rbar`, `RASR ← regions[i].rasr`;
then one `MPU_CTRL` write with `ENABLE=1`; then `DSB` followed by `ISB` and
nothing else.  Every `MPU_CTRL` write in the trace has `ENABLE=1`, i.e. the
MPU is never disabled. -/
theorem C7_write_sequence (ctrl0 : CtrlVal) (regions : List MpuRegionRegs)
    (h : regions.length ≤ 255) :
    (memory_config_write ctrl0 regions).1 =
      MpuEvent.ctrlWrite ⟨true, false, true⟩ ::
        ((List.range regions.length).flatMap (fun i =>
          [MpuEvent.rnrWrite i,
           MpuEvent.rbarWrite ((regions.getD i ⟨0, 0⟩).rbar),
           MpuEvent.rasrWrite ((regions.getD i ⟨0, 0⟩).rasr)]) ++
        [MpuEvent.ctrlWrite ⟨true, false, true⟩, MpuEvent.dsb, MpuEvent.isb]) ∧
      ∀ c, MpuEvent.ctrlWrite c ∈ (memory_config_write ctrl0 regions).1 →
        c.enable = true := by
  have htrace : (memory_config_write ctrl0 regions).1 =
      MpuEvent.ctrlWrite ⟨true, false, true⟩ ::
        ((List.range regions.length).flatMap (fun i =>
          [MpuEvent.rnrWrite i,
           MpuEvent.rbarWrite ((regions.getD i ⟨0, 0⟩).rbar),
           MpuEvent.rasrWrite ((regions.getD i ⟨0, 0⟩).rasr)]) ++
        [MpuEvent.ctrlWrite ⟨true, false, true⟩, MpuEvent.dsb, MpuEvent.isb]) := by
    show MpuEvent.ctrlWrite ⟨true, false, true⟩ :: regionLoop 0 regions ++ _ = _
    rw [regionLoop_eq regions 0 (by omega)]
    simp
  refine ⟨htrace, ?_⟩
  intro c hc
  rw [htrace] at hc
  have hc' : c = ⟨true, false, true⟩ := by
    simp only [List.mem_cons, List.mem_append, List.mem_flatMap, List.mem_range] at hc
    rcases hc with h1 | ⟨⟨i, _, hmem⟩ | h2⟩
    · exact (MpuEvent.ctrlWrite.inj h1)
    · simp at hmem
    · simp only [List.mem_cons, List.not_mem_nil, or_false] at h2
      rcases h2 with h2 | h2 | h2
      · exact (MpuEvent.ctrlWrite.inj h2)
      · cases h2
      · cases h2
  rw [hc']

/-- **C7 (witness).** The write-sequence theorem applied to a concrete
8-region configuration. -/
theorem C7_witness :
    (memory_config_write ⟨false, true, false⟩ exRegions).1 =
      MpuEvent.ctrlWrite ⟨true, false, true⟩ ::
        ((List.range exRegions.length).flatMap (fun i =>
          [MpuEvent.rnrWrite i,
           MpuEvent.rbarWrite ((exRegions.getD i ⟨0, 0⟩).rbar),
           MpuEvent.rasrWrite ((exRegions.getD i ⟨0, 0⟩).rasr)]) ++
        [MpuEvent.ctrlWrite ⟨true, false, true⟩, MpuEvent.dsb, MpuEvent.isb]) ∧
      ∀ c, MpuEvent.ctrlWrite c ∈ (memory_config_write ⟨false, true, false⟩ exRegions).1 →
        c.enable = true :=
  C7_write_sequence ⟨false, true, false⟩ exRegions (by decide)

end Pmsa7

namespace Pmsa7

/-- `alignDown` never increases its argument. -/
theorem alignDown_le (x size : Nat) : alignDown x size ≤ x := Nat.sub_le _ _

/-- Merging one loop step into the `[i, i+n)` iteration window of the
sub-region loop. -/
theorem decide_window (i n j : Nat) (hij : i ≠ j) :
    (decide (i + 1 ≤ j) && decide (j < i + 1 + n)) =
      (decide (i ≤ j) && decide (j < i + (n + 1))) := by
  have harith : i + 1 + n = i + (n + 1) := by omega
  rw [harith]
  by_cases hle : i + 1 ≤ j
  · have h2 : i ≤ j := by omega
    simp [hle, h2]
  · have h2 : ¬ i ≤ j := by omega
    simp [hle, h2]

/-- Bit `j` of the value accumulated by `srdLoop`: the accumulator's bit,
or-ed with the disable flag of sub-region `j` when `j` falls inside the
iteration window `[i, i + n)`. -/
theorem srdLoop_testBit (fb sub s e : Nat) :
    ∀ (n i acc j : Nat),
      (srdLoop fb sub s e n i acc).testBit j =
        ((decide (i ≤ j) && decide (j < i + n) &&
          subregion_disabled fb sub s e j) || acc.testBit j) := by
  intro n
  induction n with
  | zero =>
    intro i acc j
    have hfalse : (decide (i ≤ j) && decide (j < i + 0)) = false := by
      by_cases hle : i ≤ j
      · have hnot : ¬ (j < i + 0) := by omega
        simp [hnot]
      · simp [hle]
    simp only [srdLoop, hfalse, Bool.false_and, Bool.false_or]
  | succ n ih =>
    intro i acc j
    rw [srdLoop, ih]
    have hshift : (1 <<< i) = 2 ^ i := by rw [Nat.shiftLeft_eq, one_mul]
    by_cases hd : subregion_disabled fb sub s e i
    · rw [if_pos hd, Nat.testBit_lor, hshift, Nat.testBit_two_pow]
      by_cases hij : i = j
      · subst hij
        have e1 : decide (i + 1 ≤ i) = false := by
          simp only [decide_eq_false_iff_not]; omega
        have e2 : decide (i < i + (n + 1)) = true := by
          simp only [decide_eq_true_eq]; omega
        have e3 : decide (i ≤ i) = true := by simp
        have e4 : decide (i = i) = true := by simp
        rw [e1, e2, e3, e4, hd]
        simp
      · have e3 : decide (i = j) = false := by
          simp only [decide_eq_false_iff_not]; exact hij
        rw [e3, decide_window i n j hij, Bool.or_false]
    · rw [if_neg hd]
      by_cases hij : i = j
      · subst hij
        have e1 : decide (i + 1 ≤ i) = false := by
          simp only [decide_eq_false_iff_not]; omega
        have hd' : subregion_disabled fb sub s e i = false := by
          revert hd; cases subregion_disabled fb sub s e i <;> simp
        rw [e1, hd']
        simp
      · rw [decide_window i n j hij]

/-- The size-search loop, started at a power of two with enough fuel,
terminates on a power of two that is at least the request and at most
`2^31`. -/
theorem regionSizeLoop_spec :
    ∀ (fuel k req : Nat), req ≤ 2 ^ k * 2 ^ fuel → req ≤ 2 ^ 31 →
      2 ^ k ≤ 2 ^ 31 →
      ∃ m, k ≤ m ∧ regionSizeLoop (fuel + 1) req (2 ^ k) = LoopOut.ok (2 ^ m) ∧
        req ≤ 2 ^ m ∧ 2 ^ m ≤ 2 ^ 31 := by
  intro fuel
  induction fuel with
  | zero =>
    intro k req h1 _ h3
    have h1' : req ≤ 2 ^ k := by simpa using h1
    refine ⟨k, le_refl _, ?_, h1', h3⟩
    rw [regionSizeLoop, if_neg (by omega)]
  | succ fuel ih =>
    intro k req h1 h2 h3
    rw [regionSizeLoop]
    by_cases hlt : 2 ^ k < req
    · rw [if_pos hlt]
      have hk31 : k < 31 := by
        by_contra hcon
        push_neg at hcon
        have : (2 : Nat) ^ 31 ≤ 2 ^ k := Nat.pow_le_pow_right (by norm_num) hcon
        omega
      have hdouble : 2 ^ k * 2 = 2 ^ (k + 1) := by rw [pow_succ]
      have hsucc31 : (2 : Nat) ^ (k + 1) ≤ 2 ^ 31 :=
        Nat.pow_le_pow_right (by norm_num) (by omega)
      have hval : (2 : Nat) ^ 31 = 2147483648 := by norm_num
      have hnoU : ¬ (2 ^ k * 2 ≥ U32) := by
        rw [hdouble]
        have hU : U32 = 4294967296 := by norm_num [U32]
        omega
      have hnoM : ¬ (2 ^ k * 2 > MAX_REGION_SIZE) := by
        rw [hdouble]
        have hM : MAX_REGION_SIZE = 2147483648 := by norm_num [MAX_REGION_SIZE]
        omega
      rw [if_neg hnoU, if_neg hnoM, hdouble]
      have hexp : 2 ^ k * 2 ^ (fuel + 1) = 2 ^ (k + 1) * 2 ^ fuel := by ring
      rw [hexp] at h1
      obtain ⟨m, hkm, hrun, hr, hb⟩ := ih (k + 1) req h1 h2 hsucc31
      exact ⟨m, by omega, hrun, hr, hb⟩
    · rw [if_neg hlt]
      exact ⟨k, le_refl _, rfl, by omega, h3⟩

end Pmsa7

namespace Pmsa7

/-- The coverage loop, entered with a power-of-two size of at least 32, a
base at or below `start` and an end bounded by `2^31`, terminates normally
(no fallback, no overflow) on a base at or below `start` and a power-of-two
size that makes `[base, base + size)` reach `end`. -/
theorem coverLoop_spec :
    ∀ (fuel m fb s e sp : Nat), fb ≤ s → sp ≤ s → s < e → e ≤ 2 ^ 31 →
      2 ^ m ≤ 2 ^ 31 → 5 ≤ m → 32 ≤ fuel + m →
      ∃ b m2, coverLoop fuel s e sp fb (2 ^ m) = LoopOut.ok (b, 2 ^ m2) ∧
        b ≤ s ∧ e ≤ b + 2 ^ m2 ∧ m ≤ m2 ∧ 2 ^ m2 ≤ 2 ^ 31 := by
  intro fuel
  induction fuel with
  | zero =>
    intro m fb s e sp _ _ _ _ hm31 _ hfuel
    exfalso
    have h1 : (2 : Nat) ^ 32 ≤ 2 ^ m := Nat.pow_le_pow_right (by norm_num) (by omega)
    have h2 : (2 : Nat) ^ 32 ≤ 2 ^ 31 := h1.trans hm31
    norm_num at h2
  | succ fuel ih =>
    intro m fb s e sp hfb hsp hse he31 hm31 hm5 hfuel
    rw [coverLoop]
    have hval31 : (2 : Nat) ^ 31 = 2147483648 := by norm_num
    have hnoU1 : ¬ (fb + 2 ^ m ≥ U32) := by
      have hU : U32 = 4294967296 := by norm_num [U32]
      omega
    rw [if_neg hnoU1]
    by_cases hcond : fb + 2 ^ m < e
    · rw [if_pos hcond]
      have hm30 : m ≤ 30 := by
        by_contra hcon
        push_neg at hcon
        have hm31' : m ≤ 31 := by
          by_contra hc2
          push_neg at hc2
          have : (2 : Nat) ^ 32 ≤ 2 ^ m := Nat.pow_le_pow_right (by norm_num) (by omega)
          omega
        have hm : m = 31 := by omega
        subst hm
        omega
      have hdouble : 2 ^ m * 2 = 2 ^ (m + 1) := by rw [pow_succ]
      have hsucc31 : (2 : Nat) ^ (m + 1) ≤ 2 ^ 31 :=
        Nat.pow_le_pow_right (by norm_num) (by omega)
      have hnoU2 : ¬ (2 ^ m * 2 ≥ U32) := by
        rw [hdouble]
        have hU : U32 = 4294967296 := by norm_num [U32]
        omega
      have hnoM : ¬ (2 ^ m * 2 > MAX_REGION_SIZE) := by
        rw [hdouble]
        have hM : MAX_REGION_SIZE = 2147483648 := by norm_num [MAX_REGION_SIZE]
        omega
      rw [if_neg hnoU2, hdouble, if_neg (hdouble ▸ hnoM)]
      have hfb' : (if alignDown s (2 ^ (m + 1)) < sp then sp
          else alignDown s (2 ^ (m + 1))) ≤ s := by
        split
        · exact hsp
        · exact alignDown_le s _
      obtain ⟨b, m2, hrun, h1, h2, h3, h4⟩ :=
        ih (m + 1) _ s e sp hfb' hsp hse he31 hsucc31 (by omega) (by omega)
      exact ⟨b, m2, hrun, h1, h2, by omega, h4⟩
    · rw [if_neg hcond]
      exact ⟨fb, m, rfl, hfb, by omega, le_refl _, hm31⟩

/-- `bitsLoop` computes the exponent of a power of two (given enough fuel). -/
theorem bitsLoop_pow : ∀ (m fuel : Nat), m < fuel → bitsLoop fuel (2 ^ m) = m := by
  intro m
  induction m with
  | zero =>
    intro fuel h
    cases fuel with
    | zero => omega
    | succ f => simp [bitsLoop]
  | succ m ih =>
    intro fuel h
    cases fuel with
    | zero => omega
    | succ f =>
      have hgt : (2 : Nat) ^ (m + 1) > 1 := by
        have : (2 : Nat) ^ 1 ≤ 2 ^ (m + 1) := Nat.pow_le_pow_right (by norm_num) (by omega)
        omega
      have hdiv : 2 ^ (m + 1) / 2 = 2 ^ m := by
        rw [pow_succ]
        exact Nat.mul_div_cancel _ (by norm_num)
      rw [bitsLoop, if_pos hgt, hdiv, ih f (by omega)]

/-- `calculate_size_field` of a power of two `2^m` with `5 ≤ m < 64` is
`m - 1`. -/
theorem calculate_size_field_pow (m : Nat) (h5 : 5 ≤ m) (h64 : m < 64) :
    calculate_size_field (2 ^ m) = m - 1 := by
  unfold calculate_size_field
  rw [bitsLoop_pow m 64 h64, if_neg (by omega)]

end Pmsa7

namespace Pmsa7

/-- **C4.** For every `start < end < 2^31` the region compiler succeeds, bit
`i` of the emitted `srd_mask` is set **iff** sub-region `i`'s interval
`[base + i·size/8, base + (i+1)·size/8)` (with `size = 2^(size_field+1)`)
does not overlap `[start, end)` under the test
`sub_start < end ∧ sub_end > start` (hence no enabled sub-region lies
entirely outside `[start, end)`), and the union of the enabled sub-regions
covers `[start, end)`. -/
theorem C4_subregions (s e : Nat) (h1 : s < e) (h2 : e < 2 ^ 31) :
    ∃ r, calculate_aligned_region s e = some r ∧
      (∀ i, i < 8 →
        r.srd_mask.testBit i =
          !(decide (r.base + i * (2 ^ (r.size_field + 1) / 8) < e) &&
            decide (r.base + (i + 1) * (2 ^ (r.size_field + 1) / 8) > s))) ∧
      (∀ a, s ≤ a → a < e →
        ∃ i, i < 8 ∧ r.srd_mask.testBit i = false ∧
          r.base + i * (2 ^ (r.size_field + 1) / 8) ≤ a ∧
          a < r.base + (i + 1) * (2 ^ (r.size_field + 1) / 8)) := by
  have hval31 : (2 : Nat) ^ 31 = 2147483648 := by norm_num
  have h2' := h2
  rw [hval31] at h2'
  have hnlt : ¬ e < s := by omega
  have hmax : ¬ (e - s ≥ MAX_REGION_SIZE) := by
    have hM : MAX_REGION_SIZE = 2147483648 := by norm_num [MAX_REGION_SIZE]
    omega
  obtain ⟨m, hm5, hrun, hreq, hm31⟩ := regionSizeLoop_spec 32 5 (e - s)
    (by have hc : (2 : Nat) ^ 5 * 2 ^ 32 = 137438953472 := by norm_num
        omega)
    (by rw [hval31]; omega)
    (by norm_num)
  norm_num at hrun
  have hable : (if alignDown s (2 ^ m) < alignDown s PAGE_256KB
      then alignDown s PAGE_256KB else alignDown s (2 ^ m)) ≤ s := by
    split
    · exact alignDown_le s _
    · exact alignDown_le s _
  obtain ⟨b, m2, hcov, hble, hcover, hm2ge, hm2le⟩ :=
    coverLoop_spec 64 m _ s e (alignDown s PAGE_256KB) hable (alignDown_le s _)
      h1 (le_of_lt h2) hm31 hm5 (by omega)
  have hnltE : (e < s) = False := eq_false hnlt
  have hmaxE : (e - s ≥ MAX_REGION_SIZE) = False := eq_false hmax
  simp only [calculate_aligned_region, hnltE, hmaxE, if_false, hrun, hcov]
  have hm2le31 : m2 ≤ 31 := (Nat.pow_le_pow_iff_right (by norm_num)).mp hm2le
  rw [calculate_size_field_pow m2 (by omega) (by omega)]
  have hm2n : m2 - 1 + 1 = m2 := by omega
  have hsub8 : (2 : Nat) ^ m2 = 8 * 2 ^ (m2 - 3) := by
    rw [show (8 : Nat) = 2 ^ 3 by norm_num, ← pow_add]
    congr 1
    omega
  have hsubdiv : 2 ^ m2 / 8 = 2 ^ (m2 - 3) := by
    rw [hsub8]
    exact Nat.mul_div_cancel_left _ (by norm_num)
  refine ⟨⟨b, m2 - 1, srdLoop b (2 ^ m2 / 8) s e 8 0 0⟩, rfl, ?_, ?_⟩
  · intro i hi
    dsimp only
    rw [hm2n, srdLoop_testBit]
    have h0le : decide (0 ≤ i) = true := by simp
    have hi8 : decide (i < 0 + 8) = true := by
      simp only [decide_eq_true_eq]; omega
    rw [Nat.zero_testBit, h0le, hi8, Bool.or_false, Bool.true_and, Bool.true_and]
    simp only [subregion_disabled]
    have harith : b + i * (2 ^ m2 / 8) + 2 ^ m2 / 8 = b + (i + 1) * (2 ^ m2 / 8) := by
      ring
    rw [harith]
  · intro a ha1 ha2
    dsimp only
    rw [hm2n]
    have hcova : a < b + 2 ^ m2 := lt_of_lt_of_le ha2 hcover
    have hba : b ≤ a := le_trans hble ha1
    have hsubpos : 0 < 2 ^ m2 / 8 := by
      rw [hsubdiv]
      exact pow_pos (by norm_num) _
    have h8sub : 8 * (2 ^ m2 / 8) = 2 ^ m2 := by rw [hsubdiv, hsub8]
    have hi8 : (a - b) / (2 ^ m2 / 8) < 8 := by
      rw [Nat.div_lt_iff_lt_mul hsubpos, h8sub]
      omega
    have hdml : (a - b) / (2 ^ m2 / 8) * (2 ^ m2 / 8) ≤ a - b :=
      Nat.div_mul_le_self _ _
    have hlow : b + (a - b) / (2 ^ m2 / 8) * (2 ^ m2 / 8) ≤ a := by omega
    have hmod := Nat.div_add_mod (a - b) (2 ^ m2 / 8)
    have hmlt : (a - b) % (2 ^ m2 / 8) < 2 ^ m2 / 8 := Nat.mod_lt _ hsubpos
    have hcomm : 2 ^ m2 / 8 * ((a - b) / (2 ^ m2 / 8)) =
        (a - b) / (2 ^ m2 / 8) * (2 ^ m2 / 8) := Nat.mul_comm _ _
    have hexp : ((a - b) / (2 ^ m2 / 8) + 1) * (2 ^ m2 / 8) =
        (a - b) / (2 ^ m2 / 8) * (2 ^ m2 / 8) + 2 ^ m2 / 8 := by ring
    have hhigh : a < b + ((a - b) / (2 ^ m2 / 8) + 1) * (2 ^ m2 / 8) := by
      rw [hexp]
      omega
    refine ⟨(a - b) / (2 ^ m2 / 8), hi8, ?_, hlow, hhigh⟩
    rw [srdLoop_testBit]
    have h0le : decide (0 ≤ (a - b) / (2 ^ m2 / 8)) = true := by simp
    have hi8' : decide ((a - b) / (2 ^ m2 / 8) < 0 + 8) = true := by
      simp only [decide_eq_true_eq]; omega
    rw [Nat.zero_testBit, h0le, hi8', Bool.or_false, Bool.true_and, Bool.true_and]
    simp only [subregion_disabled]
    have hds : decide (b + (a - b) / (2 ^ m2 / 8) * (2 ^ m2 / 8) < e) = true := by
      simp only [decide_eq_true_eq]; omega
    have hde : decide (b + (a - b) / (2 ^ m2 / 8) * (2 ^ m2 / 8) + 2 ^ m2 / 8 > s) =
        true := by
      simp only [decide_eq_true_eq]; omega
    rw [hds, hde]
    rfl

end Pmsa7

namespace Pmsa7

/-- **C4 (witness).** The sub-region theorem applied to the spec's
Scenario A input `start = 0x40420`, `end = 0x60420`. -/
theorem C4_witness :
    ∃ r, calculate_aligned_region 0x40420 0x60420 = some r ∧
      (∀ i, i < 8 →
        r.srd_mask.testBit i =
          !(decide (r.base + i * (2 ^ (r.size_field + 1) / 8) < 0x60420) &&
            decide (r.base + (i + 1) * (2 ^ (r.size_field + 1) / 8) > 0x40420))) ∧
      (∀ a, 0x40420 ≤ a → a < 0x60420 →
        ∃ i, i < 8 ∧ r.srd_mask.testBit i = false ∧
          r.base + i * (2 ^ (r.size_field + 1) / 8) ≤ a ∧
          a < r.base + (i + 1) * (2 ^ (r.size_field + 1) / 8)) :=
  C4_subregions 0x40420 0x60420 (by norm_num) (by norm_num)

end Pmsa7

namespace Assembler

/-- `Except.ok` bound into a continuation. -/
theorem bind_ok_eq {ε α β : Type} (a : α) (f : α → Except ε β) :
    (Except.ok a >>= f) = f a := rfl

/-- `Except.error` short-circuits a bind. -/
theorem bind_error_eq {ε α β : Type} (e : ε) (f : α → Except ε β) :
    ((Except.error e : Except ε α) >>= f) = Except.error e := rfl

/-- A successful find yields a pair of the association list. -/
theorem SectionMap.find_mem {m : SectionMap} {k v : Nat}
    (h : SectionMap.find m k = some v) : (k, v) ∈ m := by
  unfold SectionMap.find at h
  cases hf : m.find? (fun p => p.1 == k) with
  | none => rw [hf] at h; cases h
  | some p =>
    rw [hf] at h
    have hm := List.mem_of_find?_eq_some hf
    have hp := List.find?_some hf
    simp only [Option.map_some'] at h
    have hk : p.1 = k := by simpa using hp
    have hv : p.2 = v := by injection h
    have : p = (k, v) := by
      cases p; simp_all
    rw [← this]
    exact hm

/-- Lookup distributes over append: the left list wins when it has the key. -/
theorem SectionMap.find_append (m m' : SectionMap) (k : Nat) :
    SectionMap.find (m ++ m') k =
      (SectionMap.find m k).orElse (fun _ => SectionMap.find m' k) := by
  unfold SectionMap.find
  rw [List.find?_append]
  cases m.find? (fun p => p.1 == k) <;> simp

/-- Lookup in a one-entry extension. -/
theorem SectionMap.find_snoc (m : SectionMap) (k v j : Nat) :
    SectionMap.find (m ++ [(k, v)]) j =
      if SectionMap.find m j = none then
        (if k = j then some v else none)
      else SectionMap.find m j := by
  rw [SectionMap.find_append]
  cases hf : SectionMap.find m j
  · simp only [Option.orElse, if_pos rfl]
    unfold SectionMap.find
    by_cases hk : k = j
    · subst hk; simp [List.find?]
    · have hbeq : (k == j) = false := by simp [hk]
      simp [List.find?, hbeq, hk]
  · simp [Option.orElse, hf]

end Assembler

namespace Assembler

/-- A symbol whose section lookup fails makes `stepSymbol` fail. -/
theorem stepSymbol_unmapped (app : Builder) (appName : String)
    (section_map : SectionMap) (secs : List Section) (sym : Symbol) (sid : Nat)
    (hsec : sym.sectionRef = some sid)
    (hfind : SectionMap.find section_map sid = none) :
    stepSymbol app appName section_map secs sym =
      Except.error ("No mapping for " ++ toString sid) := by
  unfold stepSymbol get_mapped_section_id
  rw [hsec]
  dsimp only
  rw [hfind]
  rfl

/-- If any symbol of the list references an unmapped section, the symbol
loop fails. -/
theorem goSymbols_unmapped (app : Builder) (appName : String)
    (section_map : SectionMap) (secs : List Section) :
    ∀ (syms : List Symbol),
      (∃ sym ∈ syms, ∃ sid, sym.sectionRef = some sid ∧
        SectionMap.find section_map sid = none) →
      ∃ msg, goSymbols app appName section_map secs syms = Except.error msg := by
  intro syms
  induction syms with
  | nil =>
    rintro ⟨sym, hmem, _⟩
    cases hmem
  | cons s0 rest ih =>
    rintro ⟨sym, hmem, sid, hsec, hfind⟩
    rcases List.mem_cons.mp hmem with rfl | hmem'
    · refine ⟨"No mapping for " ++ toString sid, ?_⟩
      rw [goSymbols, stepSymbol_unmapped app appName section_map secs sym sid hsec hfind]
      rfl
    · cases hstep : stepSymbol app appName section_map secs s0 with
      | error msg =>
        refine ⟨msg, ?_⟩
        rw [goSymbols, hstep]
        rfl
      | ok s' =>
        obtain ⟨msg, hrec⟩ := ih ⟨sym, hmem', sid, hsec, hfind⟩
        refine ⟨msg, ?_⟩
        rw [goSymbols, hstep, bind_ok_eq, hrec]
        rfl

/-- **C10.** `get_mapped_section_id` never returns a success without a
mapping (so the value-preserving branch for a filtered-out section in
`add_app_symbols` is unreachable), and an app symbol whose associated source
section has no entry in the per-app section map makes `add_app_symbols`
return a `No mapping for ...` error instead of copying the symbol. -/
theorem C10_no_silent_unmapped :
    (∀ (section_map : SectionMap) (id : Nat) (o : Option Nat),
        get_mapped_section_id section_map id = Except.ok o → o ≠ none) ∧
    (∀ (b app : Builder) (appName : String) (section_map : SectionMap),
        (∃ sym ∈ app.symbols, ∃ sid, sym.sectionRef = some sid ∧
          SectionMap.find section_map sid = none) →
        ∃ msg, add_app_symbols b app appName section_map = Except.error msg) := by
  constructor
  · intro section_map id o h
    unfold get_mapped_section_id at h
    cases hf : SectionMap.find section_map id with
    | none => rw [hf] at h; cases h
    | some v =>
      rw [hf] at h
      injection h with h'
      rw [← h']
      simp
  · intro b app appName section_map hex
    obtain ⟨msg, hrun⟩ := goSymbols_unmapped app appName section_map b.sections
      app.symbols hex
    refine ⟨msg, ?_⟩
    unfold add_app_symbols
    rw [hrun]
    rfl

/-- **C10 (witness).** The theorem applied to a concrete app whose only
symbol references source section 3, which the (empty) section map does not
contain. -/
theorem C10_witness :
    ∃ msg, add_app_symbols exEmptyKernel exAppDangling "app_0" [] =
      Except.error msg :=
  C10_no_silent_unmapped.2 exEmptyKernel exAppDangling "app_0" []
    ⟨exDanglingSym, by decide, 3, by decide, by decide⟩

end Assembler

namespace Assembler

/-- Unpacking a successful `add_app_sections`: the merge loop and fix-up
pass both succeeded, and segments/symbols are untouched. -/
theorem add_app_sections_spec (img : SystemImage) (app : Builder)
    (appName : String) (img' : SystemImage) (section_map : SectionMap)
    (h : add_app_sections img app appName = Except.ok (img', section_map)) :
    ∃ st, goSections appName 0 app.sections
        ⟨img.builder.sections, img.tokenized_section, [], []⟩ = Except.ok st ∧
      section_map = st.map ∧ img'.tokenized_section = st.tok ∧
      img'.builder.segments = img.builder.segments ∧
      img'.builder.symbols = img.builder.symbols ∧
      fixupPass st.map st.fixups st.secs = Except.ok img'.builder.sections := by
  unfold add_app_sections at h
  cases hg : goSections appName 0 app.sections
      ⟨img.builder.sections, img.tokenized_section, [], []⟩ with
  | error e => rw [hg, bind_error_eq] at h; cases h
  | ok st =>
    rw [hg, bind_ok_eq] at h
    cases hf : fixupPass st.map st.fixups st.secs with
    | error e => rw [hf, bind_error_eq] at h; cases h
    | ok secs =>
      rw [hf, bind_ok_eq] at h
      injection h with h'
      have h1 : img' = (⟨{ img.builder with sections := secs }, st.tok⟩ : SystemImage) :=
        (congrArg Prod.fst h').symm
      have h2 : section_map = st.map := (congrArg Prod.snd h').symm
      subst h1
      exact ⟨st, rfl, h2, rfl, rfl, rfl, hf⟩

/-- Unpacking a successful `add_app_segments`. -/
theorem add_app_segments_spec (recalc : Segment → Section → Nat) (b app : Builder)
    (section_map : SectionMap) (b' : Builder)
    (h : add_app_segments recalc b app section_map = Except.ok b') :
    ∃ secs segs,
      goSegments recalc app section_map app.segments (b.sections, b.segments) =
        Except.ok (secs, segs) ∧
      b' = { b with sections := secs, segments := segs } := by
  unfold add_app_segments at h
  cases hg : goSegments recalc app section_map app.segments (b.sections, b.segments) with
  | error e => rw [hg, bind_error_eq] at h; cases h
  | ok p =>
    cases p with
    | mk secs segs =>
      rw [hg, bind_ok_eq] at h
      injection h with h'
      exact ⟨secs, segs, rfl, h'.symm⟩

/-- Unpacking a successful `add_app_symbols`. -/
theorem add_app_symbols_spec (b app : Builder) (appName : String)
    (section_map : SectionMap) (b' : Builder)
    (h : add_app_symbols b app appName section_map = Except.ok b') :
    ∃ newSyms,
      goSymbols app appName section_map b.sections app.symbols =
        Except.ok newSyms ∧
      b' = { b with symbols := b.symbols ++ newSyms } := by
  unfold add_app_symbols at h
  cases hg : goSymbols app appName section_map b.sections app.symbols with
  | error e => rw [hg, bind_error_eq] at h; cases h
  | ok newSyms =>
    rw [hg, bind_ok_eq] at h
    injection h with h'
    exact ⟨newSyms, rfl, h'.symm⟩

/-- Unpacking a successful `add_app_image` into its three phases. -/
theorem add_app_image_spec (recalc : Segment → Section → Nat)
    (img : SystemImage) (app : Builder) (appName : String)
    (img' : SystemImage) (section_map : SectionMap)
    (h : add_app_image recalc img app appName = Except.ok (img', section_map)) :
    ∃ img1 b2 b3,
      add_app_sections img app appName = Except.ok (img1, section_map) ∧
      add_app_segments recalc img1.builder app section_map = Except.ok b2 ∧
      add_app_symbols b2 app appName section_map = Except.ok b3 ∧
      img' = { builder := b3, tokenized_section := img1.tokenized_section } := by
  unfold add_app_image at h
  cases hs : add_app_sections img app appName with
  | error e => rw [hs, bind_error_eq] at h; cases h
  | ok p =>
    cases p with
    | mk img1 m1 =>
      rw [hs, bind_ok_eq] at h
      dsimp only at h
      cases hg : add_app_segments recalc img1.builder app m1 with
      | error e => rw [hg, bind_error_eq] at h; cases h
      | ok b2 =>
        rw [hg, bind_ok_eq] at h
        cases hy : add_app_symbols b2 app appName m1 with
        | error e => rw [hy, bind_error_eq] at h; cases h
        | ok b3 =>
          rw [hy, bind_ok_eq] at h
          injection h with h'
          have h1 : img' = (⟨b3, img1.tokenized_section⟩ : SystemImage) :=
            (congrArg Prod.fst h').symm
          have h2 : section_map = m1 := (congrArg Prod.snd h').symm
          subst h2
          exact ⟨img1, b2, b3, rfl, hg, hy, h1⟩

end Assembler

namespace Assembler

/-- `pure` bound into a continuation. -/
theorem pure_bind_eq {ε α β : Type} (a : α) (f : α → Except ε β) :
    ((pure a : Except ε α) >>= f) = f a := rfl

/-- The name produced by `stepSymbol`: suffixed for `STB_GLOBAL` symbols,
the builder-default empty name otherwise. -/
theorem stepSymbol_name (app : Builder) (appName : String)
    (section_map : SectionMap) (secs : List Section) (sym s' : Symbol)
    (h : stepSymbol app appName section_map secs sym = Except.ok s') :
    s'.name =
      (if sym.st_bind == STB_GLOBAL then sym.name ++ "_" ++ appName else "") := by
  unfold stepSymbol get_mapped_section_id at h
  cases hs : sym.sectionRef with
  | none =>
    rw [hs] at h
    dsimp only at h
    cases hscan : scanAbsolute section_map secs sym.st_value 0 app.sections with
    | error e => rw [hscan, bind_error_eq] at h; cases h
    | ok v =>
      rw [hscan, bind_ok_eq] at h
      injection h with h'
      rw [← h']
  | some old =>
    rw [hs] at h
    dsimp only at h
    cases hm : SectionMap.find section_map old with
    | none =>
      rw [hm] at h
      dsimp only at h
      rw [bind_error_eq] at h
      cases h
    | some nid =>
      rw [hm] at h
      dsimp only at h
      rw [bind_ok_eq] at h
      dsimp only at h
      rw [pure_bind_eq] at h
      injection h with h'
      rw [← h']

/-- Element-wise unpacking of a successful symbol loop. -/
theorem goSymbols_ok_spec (app : Builder) (appName : String)
    (section_map : SectionMap) (secs : List Section) :
    ∀ (syms out : List Symbol),
      goSymbols app appName section_map secs syms = Except.ok out →
      out.length = syms.length ∧
      ∀ j, j < syms.length →
        stepSymbol app appName section_map secs (syms.getD j dfltSymbol) =
          Except.ok (out.getD j dfltSymbol) := by
  intro syms
  induction syms with
  | nil =>
    intro out h
    injection h with h'
    subst h'
    exact ⟨rfl, fun j hj => absurd hj (by simp)⟩
  | cons s0 rest ih =>
    intro out h
    rw [goSymbols] at h
    cases hstep : stepSymbol app appName section_map secs s0 with
    | error e => rw [hstep, bind_error_eq] at h; cases h
    | ok s' =>
      rw [hstep, bind_ok_eq] at h
      cases hrec : goSymbols app appName section_map secs rest with
      | error e => rw [hrec, bind_error_eq] at h; cases h
      | ok out' =>
        rw [hrec, bind_ok_eq] at h
        injection h with h'
        obtain ⟨hlen, helem⟩ := ih out' hrec
        constructor
        · rw [← h']
          simp [hlen]
        · intro j hj
          cases j with
          | zero =>
            rw [← h']
            simpa using hstep
          | succ j =>
            rw [← h']
            simp only [List.getD_cons_succ]
            exact helem j (by simp at hj; omega)

/-- Pushing sanitised characters one by one appends the mapped list. -/
theorem foldl_push_data (f : Char → Char) :
    ∀ (l : List Char) (acc : String),
      (l.foldl (fun a c => a.push (f c)) acc).data = acc.data ++ l.map f := by
  intro l
  induction l with
  | nil => intro acc; simp
  | cons c rest ih =>
    intro acc
    simp only [List.foldl_cons, List.map_cons]
    rw [ih]
    show (acc.push (f c)).data ++ rest.map f = acc.data ++ (f c :: rest.map f)
    have hp : (acc.push (f c)).data = acc.data ++ [f c] := rfl
    rw [hp]
    simp

/-- `get_app_name` is the sanitised stem, an underscore and the decimal
index. -/
theorem get_app_name_data (stem : String) (index : Nat) :
    (get_app_name stem index).data =
      stem.data.map sanitizeChar ++ ('_' :: (Nat.repr index).data) := by
  unfold get_app_name
  rw [String.data_append, String.data_append, foldl_push_data]
  have h1 : ("" : String).data = [] := rfl
  have h2 : ("_" : String).data = ['_'] := rfl
  have h3 : toString index = Nat.repr index := rfl
  rw [h1, h2, h3]
  simp

end Assembler

namespace Assembler

/-- Names produced by the symbol loop. -/
theorem goSymbols_names (app : Builder) (appName : String)
    (section_map : SectionMap) (secs : List Section) :
    ∀ (syms out : List Symbol),
      goSymbols app appName section_map secs syms = Except.ok out →
      out.map Symbol.name = syms.map (fun sym =>
        if sym.st_bind == STB_GLOBAL then sym.name ++ "_" ++ appName else "") := by
  intro syms
  induction syms with
  | nil =>
    intro out h
    injection h with h'
    subst h'
    rfl
  | cons s0 rest ih =>
    intro out h
    rw [goSymbols] at h
    cases hstep : stepSymbol app appName section_map secs s0 with
    | error e => rw [hstep, bind_error_eq] at h; cases h
    | ok s' =>
      rw [hstep, bind_ok_eq] at h
      cases hrec : goSymbols app appName section_map secs rest with
      | error e => rw [hrec, bind_error_eq] at h; cases h
      | ok out' =>
        rw [hrec, bind_ok_eq] at h
        injection h with h'
        rw [← h']
        simp only [List.map_cons]
        rw [stepSymbol_name app appName section_map secs s0 s' hstep, ih out' hrec]

/-- **C9 (counterexample).** The claim says local and weak symbols keep their
names; but `add_app_symbols` only assigns a name to `STB_GLOBAL` symbols, so
the local symbol `foo` comes out with the builder-default empty name. -/
theorem C9_counterexample :
    exAppLocal.symbols.map Symbol.name = ["foo"] ∧
    (add_app_image recalcVaddr (newSystemImage exEmptyKernel) exAppLocal
        (get_app_name "app" 0)).map
      (fun p => p.1.builder.symbols.map Symbol.name) = Except.ok [""] := by
  constructor
  · rfl
  · rfl

/-- **C9 (amended).** The `_<appname>` suffix is appended exactly to
`STB_GLOBAL` symbols, where the appname is the sanitised file stem followed
by `_<index>`; however weak and local symbols do not keep their names — they
are emitted with the builder's default empty name. -/
theorem C9_amended :
    (∀ (recalc : Segment → Section → Nat) (img : SystemImage) (app : Builder)
        (stem : String) (idx : Nat) (img' : SystemImage)
        (section_map : SectionMap),
      add_app_image recalc img app (get_app_name stem idx) =
        Except.ok (img', section_map) →
      img'.builder.symbols.map Symbol.name =
        img.builder.symbols.map Symbol.name ++
          app.symbols.map (fun sym =>
            if sym.st_bind == STB_GLOBAL then
              sym.name ++ "_" ++ get_app_name stem idx
            else "")) ∧
    (∀ (stem : String) (idx : Nat),
      (get_app_name stem idx).data =
        stem.data.map sanitizeChar ++ ('_' :: (Nat.repr idx).data)) := by
  constructor
  · intro recalc img app stem idx img' section_map h
    obtain ⟨img1, b2, b3, hs, hg, hy, himg⟩ :=
      add_app_image_spec recalc img app (get_app_name stem idx) img' section_map h
    obtain ⟨st, _, _, _, _, hsyms1, _⟩ :=
      add_app_sections_spec img app (get_app_name stem idx) img1 section_map hs
    obtain ⟨secs2, segs2, _, hb2⟩ :=
      add_app_segments_spec recalc img1.builder app section_map b2 hg
    obtain ⟨newSyms, hgo, hb3⟩ :=
      add_app_symbols_spec b2 app (get_app_name stem idx) section_map b3 hy
    have hb2syms : b2.symbols = img1.builder.symbols := by rw [hb2]
    rw [himg, hb3]
    show (b2.symbols ++ newSyms).map Symbol.name = _
    rw [List.map_append, hb2syms, hsyms1]
    rw [goSymbols_names app (get_app_name stem idx) section_map b2.sections
      app.symbols newSyms hgo]
  · exact get_app_name_data

/-- **C9 (witness).** The amended theorem applied to the app containing only
the local symbol `foo` (stem `app`, index 0). -/
theorem C9_witness :
    (⟨⟨[], [], [⟨"", none, 0, 0, 0, 0, 0, 0, false⟩]⟩, none⟩ :
        SystemImage).builder.symbols.map Symbol.name =
      (newSystemImage exEmptyKernel).builder.symbols.map Symbol.name ++
        exAppLocal.symbols.map (fun sym =>
          if sym.st_bind == STB_GLOBAL then
            sym.name ++ "_" ++ get_app_name "app" 0
          else "") :=
  C9_amended.1 recalcVaddr (newSystemImage exEmptyKernel) exAppLocal "app" 0
    ⟨⟨[], [], [⟨"", none, 0, 0, 0, 0, 0, 0, false⟩]⟩, none⟩ [] (by rfl)

end Assembler

namespace Assembler

/-- `getD` at an in-range index ignores the default. -/
theorem getD_default_irrel {α : Type} (l : List α) (n : Nat) (h : n < l.length)
    (d d' : α) : l.getD n d = l.getD n d' := by
  rw [List.getD_eq_getElem?_getD, List.getD_eq_getElem?_getD,
    List.getElem?_eq_getElem h]
  rfl

/-- `getD` after `set` at the written index. -/
theorem getD_set_eq_of_lt {α : Type} (l : List α) (t : Nat) (v d : α)
    (h : t < l.length) : (l.set t v).getD t d = v := by
  rw [List.getD_eq_getElem?_getD, List.getElem?_set_self h]
  rfl

/-- `getD` after `set` at another index. -/
theorem getD_set_ne' {α : Type} (l : List α) (t j : Nat) (v d : α) (h : t ≠ j) :
    (l.set t v).getD j d = l.getD j d := by
  rw [List.getD_eq_getElem?_getD, List.getElem?_set_ne h,
    ← List.getD_eq_getElem?_getD]

/-- `getD` of an append, left range. -/
theorem getD_append_left {α : Type} (l l' : List α) (d : α) (n : Nat)
    (h : n < l.length) : (l ++ l').getD n d = l.getD n d :=
  List.getD_append l l' d n h

/-- `getD` of a one-element extension at the old length. -/
theorem getD_snoc_len {α : Type} (l : List α) (x d : α) :
    (l ++ [x]).getD l.length d = x := by
  rw [List.getD_append_right _ _ _ _ (le_refl _)]
  simp

/-- Field-by-field description of a successful `copy_section`. -/
theorem copy_section_spec (section_map : SectionMap) (src : Section)
    (dstName : String) (dst : Section)
    (h : copy_section section_map src dstName = Except.ok dst) :
    dst.name = dstName ∧ dst.sh_type = src.sh_type ∧
    dst.sh_flags = src.sh_flags ∧ dst.sh_addr = src.sh_addr ∧
    dst.sh_offset = src.sh_offset ∧ dst.sh_size = src.sh_size ∧
    dst.sh_addralign = src.sh_addralign ∧ dst.sh_entsize = src.sh_entsize ∧
    (∀ bytes, src.data = SectionData.raw bytes →
      dst.data = SectionData.raw bytes) := by
  unfold copy_section at h
  cases hd : src.data <;> rw [hd] at h <;> dsimp only at h
  case raw bytes =>
    rw [bind_ok_eq] at h
    injection h with h'
    rw [← h']
    refine ⟨rfl, rfl, rfl, rfl, rfl, rfl, rfl, rfl, ?_⟩
    intro b hb
    injection hb with hb'
    rw [hb']
  case uninit n =>
    rw [bind_ok_eq] at h
    injection h with h'
    rw [← h']
    refine ⟨rfl, rfl, rfl, rfl, rfl, rfl, rfl, rfl, ?_⟩
    intro b hb
    cases hb
  case attributes tags =>
    cases hr : remapTagIds section_map tags with
    | error e => rw [hr, bind_error_eq] at h; cases h
    | ok ids =>
      rw [hr] at h
      rw [bind_ok_eq] at h
      rw [bind_ok_eq] at h
      injection h with h'
      rw [← h']
      refine ⟨rfl, rfl, rfl, rfl, rfl, rfl, rfl, rfl, ?_⟩
      intro b hb
      cases hb
  case marker =>
    rw [bind_ok_eq] at h
    injection h with h'
    rw [← h']
    refine ⟨rfl, rfl, rfl, rfl, rfl, rfl, rfl, rfl, ?_⟩
    intro b hb
    cases hb
  case unsupportedData =>
    rw [bind_error_eq] at h
    cases h

/-- A successful `update_tokenized_section` with an existing survivor:
both payloads are raw, the survivor grows by the source's bytes and size,
and the source id is mapped to the survivor. -/
theorem update_tok_some (secs : List Section) (t : Nat)
    (section_map : SectionMap) (src : Section) (srcId : Nat)
    (out : Bool × List Section × SectionMap)
    (h : update_tokenized_section secs (some t) section_map src srcId =
      Except.ok out) :
    ∃ db nb, (secs.getD t dfltSection).data = SectionData.raw db ∧
      src.data = SectionData.raw nb ∧
      out = (false,
        secs.set t { secs.getD t dfltSection with
          sh_size := (secs.getD t dfltSection).sh_size + src.sh_size,
          data := SectionData.raw (db ++ nb) },
        section_map ++ [(srcId, t)]) := by
  simp only [update_tokenized_section] at h
  cases hd1 : (secs.getD t dfltSection).data <;> rw [hd1] at h <;>
    cases hd2 : src.data <;> rw [hd2] at h <;> dsimp only at h
  all_goals cases h
  case raw.raw db nb => exact ⟨db, nb, rfl, rfl, rfl⟩

end Assembler

namespace Assembler

/-- The three possible successful outcomes of one section-loop iteration:
append to an existing tokenizer survivor, skip, or add a fresh copy. -/
theorem stepSection_cases (appName : String) (st : MergeSt) (i : Nat)
    (s : Section) (st' : MergeSt)
    (h : stepSection appName st i s = Except.ok st') :
    (∃ t db nb, is_tokenizer_section s = true ∧ st.tok = some t ∧
      (st.secs.getD t dfltSection).data = SectionData.raw db ∧
      s.data = SectionData.raw nb ∧
      st' = { st with
        secs := st.secs.set t { st.secs.getD t dfltSection with
          sh_size := (st.secs.getD t dfltSection).sh_size + s.sh_size,
          data := SectionData.raw (db ++ nb) },
        map := st.map ++ [(i, t)] }) ∨
    (SKIPPED_APP_SECTIONS.contains s.name = true ∧
      (is_tokenizer_section s = false ∨ st.tok = none) ∧ st' = st) ∨
    (∃ dst, SKIPPED_APP_SECTIONS.contains s.name = false ∧
      (is_tokenizer_section s = false ∨ st.tok = none) ∧
      copy_section (st.map ++ [(i, st.secs.length)]) s
        (if is_tokenizer_section s then s.name else s.name ++ "." ++ appName) =
        Except.ok dst ∧
      st' = { secs := st.secs ++ [dst],
              tok := if is_tokenizer_section s then some st.secs.length
                else st.tok,
              map := st.map ++ [(i, st.secs.length)],
              fixups := if s.sh_link_section.isSome || s.sh_info_section.isSome
                then st.fixups ++ [st.secs.length] else st.fixups }) := by
  by_cases htok : is_tokenizer_section s
  · cases htk : st.tok with
    | some t =>
      left
      simp only [stepSection, htok, htk, if_true] at h
      cases hu : update_tokenized_section st.secs (some t) st.map s i with
      | error e => rw [hu, bind_error_eq] at h; cases h
      | ok out =>
        obtain ⟨db, nb, hd1, hd2, hout⟩ := update_tok_some st.secs t st.map s i out hu
        rw [hu, bind_ok_eq] at h
        subst hout
        simp only [Bool.not_false, Bool.and_true, if_true] at h
        injection h with h'
        exact ⟨t, db, nb, htok, rfl, hd1, hd2, h'.symm⟩
    | none =>
      simp only [stepSection, update_tokenized_section, htok, htk, if_true,
        bind_ok_eq] at h
      simp only [Bool.not_true, Bool.and_false, Bool.false_eq_true, if_false] at h
      by_cases hskip : SKIPPED_APP_SECTIONS.contains s.name
      · rw [if_pos hskip] at h
        right; left
        injection h with h'
        exact ⟨hskip, Or.inr rfl, by rw [← h', ← htk]⟩
      · rw [if_neg hskip] at h
        right; right
        cases hc : copy_section (st.map ++ [(i, st.secs.length)]) s s.name with
        | error e => rw [hc, bind_error_eq] at h; cases h
        | ok dst =>
          rw [hc, bind_ok_eq] at h
          injection h with h'
          refine ⟨dst, by simpa using hskip, Or.inr rfl, ?_, ?_⟩
          · rw [if_pos htok]
            exact hc
          · rw [← h', if_pos htok]
  · have htokf : is_tokenizer_section s = false := by simpa using htok
    simp only [stepSection, htokf, Bool.false_eq_true, if_false, pure_bind_eq,
      Bool.false_and] at h
    by_cases hskip : SKIPPED_APP_SECTIONS.contains s.name
    · rw [if_pos hskip] at h
      right; left
      injection h with h'
      exact ⟨hskip, Or.inl htokf, by rw [← h']⟩
    · rw [if_neg hskip] at h
      right; right
      cases hc : copy_section (st.map ++ [(i, st.secs.length)]) s
          (s.name ++ "." ++ appName) with
      | error e => rw [hc, bind_error_eq] at h; cases h
      | ok dst =>
        rw [hc, bind_ok_eq] at h
        injection h with h'
        refine ⟨dst, by simpa using hskip, Or.inl htokf, ?_, ?_⟩
        · rw [htokf]
          simp only [Bool.false_eq_true, if_false]
          exact hc
        · rw [← h', htokf]
          simp only [Bool.false_eq_true, if_false]

end Assembler

namespace Assembler

/-- One section-loop iteration preserves the merge invariant (the processed
index `i` must denote the processed section `s` in the app arena). -/
theorem stepSection_inv (appName : String) (a : Builder) (i : Nat) (s : Section)
    (st st' : MergeSt) (hstep : stepSection appName st i s = Except.ok st')
    (hgetD : a.sections.getD i dfltSection = s) (hinv : SecInv a st) :
    SecInv a st' ∧ (∀ t, st.tok = some t → st'.tok = some t) := by
  obtain ⟨I1, I2, I3, I4, I5⟩ := hinv
  rcases stepSection_cases appName st i s st' hstep with
    ⟨t, db, nb, htok, htk, hd1, hd2, hst'⟩ | ⟨hskip, hor, hst'⟩ |
    ⟨dst, hskip, hor, hcopy, hst'⟩
  · subst hst'
    have htlt : t < st.secs.length := I2 t htk
    have haddr : ∀ j d, ((st.secs.set t
        { st.secs.getD t dfltSection with
          sh_size := (st.secs.getD t dfltSection).sh_size + s.sh_size,
          data := SectionData.raw (db ++ nb) }).getD j d).sh_addr =
        (st.secs.getD j d).sh_addr := by
      intro j d
      by_cases hj : t = j
      · subst hj
        rw [getD_set_eq_of_lt _ _ _ _ htlt,
          getD_default_irrel st.secs t htlt d dfltSection]
      · rw [getD_set_ne' _ _ _ _ _ hj]
    refine ⟨⟨?_, ?_, ?_, ?_, ?_⟩, ?_⟩
    · intro p hp
      rw [List.length_set]
      rcases List.mem_append.mp hp with hold | hnew
      · exact I1 p hold
      · simp at hnew
        subst hnew
        exact htlt
    · intro u hu
      rw [List.length_set]
      exact I2 u hu
    · intro p hp hguard
      rcases List.mem_append.mp hp with hold | hnew
      · rw [haddr]
        exact I3 p hold hguard
      · simp at hnew
        subst hnew
        exact absurd htk hguard
    · intro p hp q hq hpq hne
      rcases List.mem_append.mp hp with hpold | hpnew <;>
        rcases List.mem_append.mp hq with hqold | hqnew
      · exact I4 p hpold q hqold hpq hne
      · simp at hqnew
        subst hqnew
        rw [hpq]
        exact htk
      · simp at hpnew
        subst hpnew
        exact htk
      · simp at hpnew hqnew
        subst hpnew
        subst hqnew
        exact absurd rfl hne
    · intro p hp htokeq
      rcases List.mem_append.mp hp with hold | hnew
      · exact I5 p hold htokeq
      · simp at hnew
        subst hnew
        dsimp only
        rw [hgetD]
        exact htok
    · intro u hu
      exact hu
  · subst hst'
    exact ⟨⟨I1, I2, I3, I4, I5⟩, fun u hu => hu⟩
  · subst hst'
    have hdspec := copy_section_spec _ s _ dst hcopy
    have hdaddr : dst.sh_addr = s.sh_addr := hdspec.2.2.2.1
    refine ⟨⟨?_, ?_, ?_, ?_, ?_⟩, ?_⟩
    · intro p hp
      simp only [List.length_append, List.length_cons, List.length_nil]
      rcases List.mem_append.mp hp with hold | hnew
      · have h1 := I1 p hold
        omega
      · simp at hnew
        subst hnew
        dsimp only
        omega
    · intro u hu
      simp only [List.length_append, List.length_cons, List.length_nil]
      by_cases ht : is_tokenizer_section s
      · rw [if_pos ht] at hu
        injection hu with hu'
        omega
      · rw [if_neg ht] at hu
        have h1 := I2 u hu
        omega
    · intro p hp hguard
      rcases List.mem_append.mp hp with hold | hnew
      · have hplt := I1 p hold
        rw [getD_append_left _ _ _ _ hplt]
        apply I3 p hold
        by_cases ht : is_tokenizer_section s
        · rcases hor with hf | hnone
          · rw [ht] at hf
            cases hf
          · rw [hnone]
            intro hcon
            cases hcon
        · rw [if_neg ht] at hguard
          exact hguard
      · simp at hnew
        subst hnew
        by_cases ht : is_tokenizer_section s
        · rw [if_pos ht] at hguard
          exact absurd rfl hguard
        · dsimp only
          rw [getD_snoc_len, hgetD]
          exact hdaddr
    · intro p hp q hq hpq hne
      rcases List.mem_append.mp hp with hpold | hpnew <;>
        rcases List.mem_append.mp hq with hqold | hqnew
      · have hbase := I4 p hpold q hqold hpq hne
        by_cases ht : is_tokenizer_section s
        · rcases hor with hf | hnone
          · rw [ht] at hf
            cases hf
          · rw [hnone] at hbase
            cases hbase
        · rw [if_neg ht]
          exact hbase
      · simp at hqnew
        subst hqnew
        exfalso
        have h1 := I1 p hpold
        dsimp only at hpq
        omega
      · simp at hpnew
        subst hpnew
        exfalso
        have h1 := I1 q hqold
        dsimp only at hpq
        omega
      · simp at hpnew hqnew
        subst hpnew
        subst hqnew
        exact absurd rfl hne
    · intro p hp htokeq
      rcases List.mem_append.mp hp with hold | hnew
      · by_cases ht : is_tokenizer_section s
        · rw [if_pos ht] at htokeq
          injection htokeq with h'
          have h1 := I1 p hold
          exfalso
          omega
        · rw [if_neg ht] at htokeq
          exact I5 p hold htokeq
      · simp at hnew
        subst hnew
        dsimp only
        rw [hgetD]
        by_cases ht : is_tokenizer_section s
        · exact ht
        · rw [if_neg ht] at htokeq
          have h1 := I2 _ htokeq
          exfalso
          dsimp only at h1
          omega
    · intro u hu
      by_cases ht : is_tokenizer_section s
      · rcases hor with hf | hnone
        · rw [ht] at hf
          cases hf
        · rw [hnone] at hu
          cases hu
      · rw [if_neg ht]
        exact hu

end Assembler

namespace Assembler

/-- The section loop preserves the merge invariant, and the survivor only
ever gains a value. -/
theorem goSections_inv (appName : String) (a : Builder) :
    ∀ (rest : List Section) (i : Nat) (st st' : MergeSt),
      goSections appName i rest st = Except.ok st' →
      a.sections.drop i = rest →
      SecInv a st →
      SecInv a st' ∧ (∀ t, st.tok = some t → st'.tok = some t) := by
  intro rest
  induction rest with
  | nil =>
    intro i st st' h _ hinv
    injection h with h'
    subst h'
    exact ⟨hinv, fun t ht => ht⟩
  | cons s rest' ih =>
    intro i st st' h hdrop hinv
    rw [goSections] at h
    cases hs : stepSection appName st i s with
    | error e => rw [hs, bind_error_eq] at h; cases h
    | ok st1 =>
      rw [hs, bind_ok_eq] at h
      have h0 : a.sections[i]? = some s := by
        have hge := List.getElem?_drop a.sections i 0
        rw [hdrop] at hge
        simpa using hge.symm
      have hget : a.sections.getD i dfltSection = s := by
        rw [List.getD_eq_getElem?_getD, h0]
        rfl
      have hdrop' : a.sections.drop (i + 1) = rest' := by
        rw [← List.tail_drop, hdrop]
        rfl
      obtain ⟨hinv1, hmono1⟩ := stepSection_inv appName a i s st st1 hs hget hinv
      obtain ⟨hinv2, hmono2⟩ := ih (i + 1) st1 st' h hdrop' hinv1
      exact ⟨hinv2, fun t ht => hmono2 t (hmono1 t ht)⟩

end Assembler

namespace Assembler

/-- `set` only at the stated index: `getD` elsewhere, or with the same
header fields, is unchanged.  Generic form used by the fix-up lemmas. -/
theorem getD_set_preserves {α β : Type} (l : List α) (k j : Nat) (v d : α)
    (f : α → β) (hsame : k < l.length → f v = f (l.getD k d)) :
    f ((l.set k v).getD j d) = f (l.getD j d) := by
  by_cases hkj : k = j
  · subst hkj
    by_cases hlen : k < l.length
    · rw [getD_set_eq_of_lt _ _ _ _ hlen]
      exact hsame hlen
    · rw [List.set_eq_of_length_le (by omega)]
  · rw [getD_set_ne' _ _ _ _ _ hkj]

/-- `applyFixup` only rewrites `sh_link_section` / `sh_info_section`. -/
theorem applyFixup_preserves (section_map : SectionMap) (secs : List Section)
    (sectionId : Nat) (secs' : List Section)
    (h : applyFixup section_map secs sectionId = Except.ok secs') :
    secs'.length = secs.length ∧
    ∀ j d, (secs'.getD j d).sh_addr = (secs.getD j d).sh_addr ∧
      (secs'.getD j d).sh_size = (secs.getD j d).sh_size ∧
      (secs'.getD j d).name = (secs.getD j d).name ∧
      (secs'.getD j d).sh_flags = (secs.getD j d).sh_flags ∧
      (secs'.getD j d).data = (secs.getD j d).data := by
  have main : ∃ sFinal,
      secs' = secs.set sectionId sFinal ∧
      sFinal.sh_addr = (secs.getD sectionId dfltSection).sh_addr ∧
      sFinal.sh_size = (secs.getD sectionId dfltSection).sh_size ∧
      sFinal.name = (secs.getD sectionId dfltSection).name ∧
      sFinal.sh_flags = (secs.getD sectionId dfltSection).sh_flags ∧
      sFinal.data = (secs.getD sectionId dfltSection).data := by
    simp only [applyFixup] at h
    cases hl : (secs.getD sectionId dfltSection).sh_link_section with
    | none =>
      rw [hl] at h
      dsimp only at h
      rw [pure_bind_eq] at h
      cases hi : (secs.getD sectionId dfltSection).sh_info_section with
      | none =>
        rw [hi] at h
        dsimp only at h
        rw [pure_bind_eq] at h
        injection h with h'
        exact ⟨_, h'.symm, rfl, rfl, rfl, rfl, rfl⟩
      | some id2 =>
        rw [hi] at h
        dsimp only at h
        cases hm2 : get_mapped_section_id section_map id2 with
        | error e => rw [hm2, bind_error_eq] at h; cases h
        | ok m2 =>
          rw [hm2, bind_ok_eq] at h
          rw [pure_bind_eq] at h
          injection h with h'
          exact ⟨_, h'.symm, rfl, rfl, rfl, rfl, rfl⟩
    | some id1 =>
      rw [hl] at h
      dsimp only at h
      cases hm1 : get_mapped_section_id section_map id1 with
      | error e => rw [hm1, bind_error_eq] at h; cases h
      | ok m1 =>
        rw [hm1, bind_ok_eq] at h
        rw [pure_bind_eq] at h
        dsimp only at h
        cases hi : (secs.getD sectionId dfltSection).sh_info_section with
        | none =>
          rw [hi] at h
          dsimp only at h
          rw [pure_bind_eq] at h
          injection h with h'
          exact ⟨_, h'.symm, rfl, rfl, rfl, rfl, rfl⟩
        | some id2 =>
          rw [hi] at h
          dsimp only at h
          cases hm2 : get_mapped_section_id section_map id2 with
          | error e => rw [hm2, bind_error_eq] at h; cases h
          | ok m2 =>
            rw [hm2, bind_ok_eq] at h
            rw [pure_bind_eq] at h
            injection h with h'
            exact ⟨_, h'.symm, rfl, rfl, rfl, rfl, rfl⟩
  obtain ⟨sFinal, hset, ha, hz, hn, hf, hdta⟩ := main
  subst hset
  refine ⟨List.length_set _ _ _, ?_⟩
  intro j d
  refine ⟨?_, ?_, ?_, ?_, ?_⟩
  · exact getD_set_preserves secs sectionId j sFinal d Section.sh_addr
      (fun hlt => ha.trans
        (congrArg Section.sh_addr (getD_default_irrel secs sectionId hlt dfltSection d)))
  · exact getD_set_preserves secs sectionId j sFinal d Section.sh_size
      (fun hlt => hz.trans
        (congrArg Section.sh_size (getD_default_irrel secs sectionId hlt dfltSection d)))
  · exact getD_set_preserves secs sectionId j sFinal d Section.name
      (fun hlt => hn.trans
        (congrArg Section.name (getD_default_irrel secs sectionId hlt dfltSection d)))
  · exact getD_set_preserves secs sectionId j sFinal d Section.sh_flags
      (fun hlt => hf.trans
        (congrArg Section.sh_flags (getD_default_irrel secs sectionId hlt dfltSection d)))
  · exact getD_set_preserves secs sectionId j sFinal d Section.data
      (fun hlt => hdta.trans
        (congrArg Section.data (getD_default_irrel secs sectionId hlt dfltSection d)))

end Assembler

namespace Assembler

/-- The fix-up pass only rewrites `sh_link_section` / `sh_info_section`. -/
theorem fixupPass_preserves (section_map : SectionMap) :
    ∀ (fixups : List Nat) (secs secs' : List Section),
      fixupPass section_map fixups secs = Except.ok secs' →
      secs'.length = secs.length ∧
      ∀ j d, (secs'.getD j d).sh_addr = (secs.getD j d).sh_addr ∧
        (secs'.getD j d).sh_size = (secs.getD j d).sh_size ∧
        (secs'.getD j d).name = (secs.getD j d).name ∧
        (secs'.getD j d).sh_flags = (secs.getD j d).sh_flags ∧
        (secs'.getD j d).data = (secs.getD j d).data := by
  intro fixups
  induction fixups with
  | nil =>
    intro secs secs' h
    injection h with h'
    subst h'
    exact ⟨rfl, fun j d => ⟨rfl, rfl, rfl, rfl, rfl⟩⟩
  | cons id rest ih =>
    intro secs secs' h
    rw [fixupPass] at h
    cases ha : applyFixup section_map secs id with
    | error e => rw [ha, bind_error_eq] at h; cases h
    | ok secs1 =>
      rw [ha, bind_ok_eq] at h
      obtain ⟨hl1, hp1⟩ := applyFixup_preserves section_map secs id secs1 ha
      obtain ⟨hl2, hp2⟩ := ih secs1 secs' h
      refine ⟨hl2.trans hl1, ?_⟩
      intro j d
      obtain ⟨a1, z1, n1, f1, d1⟩ := hp1 j d
      obtain ⟨a2, z2, n2, f2, d2⟩ := hp2 j d
      exact ⟨a2.trans a1, z2.trans z1, n2.trans n1, f2.trans f1, d2.trans d1⟩

/-- One segment-section step: the mapped destination gets its `sh_addr`
restored to the source section's address and is recorded in the segment. -/
theorem stepSegmentSection_spec (recalc : Segment → Section → Nat)
    (app : Builder) (section_map : SectionMap) (secs : List Section)
    (seg : Segment) (sid : Nat) (out : List Section × Segment)
    (h : stepSegmentSection recalc app section_map (secs, seg) sid =
      Except.ok out) :
    ∃ did, SectionMap.find section_map sid = some did ∧
      out = (secs.set did { secs.getD did dfltSection with
          sh_addr := (app.sections.getD sid dfltSection).sh_addr },
        { seg with sections := seg.sections ++ [did] }) := by
  simp only [stepSegmentSection, get_mapped_section_id] at h
  cases hf : SectionMap.find section_map sid with
  | none => rw [hf] at h; dsimp only at h; rw [bind_error_eq] at h; cases h
  | some did =>
    rw [hf] at h
    dsimp only at h
    rw [bind_ok_eq] at h
    dsimp only at h
    injection h with h'
    exact ⟨did, rfl, h'.symm⟩

end Assembler

namespace Assembler

/-- The inner loop of one load segment: lengths and the segment's addresses
are preserved, and the address-restoration property survives (using the
almost-injectivity of the section map). -/
theorem goSegmentSections_spec (recalc : Segment → Section → Nat)
    (app : Builder) (section_map : SectionMap) (tokF : Option Nat)
    (HU : ∀ p ∈ section_map, ∀ q ∈ section_map, p.2 = q.2 → p.1 ≠ q.1 →
      tokF = some p.2) :
    ∀ (sids : List Nat) (secs : List Section) (seg : Segment)
      (out : List Section × Segment),
      goSegmentSections recalc app section_map sids (secs, seg) = Except.ok out →
      out.1.length = secs.length ∧
      out.2.p_vaddr = seg.p_vaddr ∧ out.2.p_paddr = seg.p_paddr ∧
      ((∀ sid did, SectionMap.find section_map sid = some did →
          tokF ≠ some did →
          (secs.getD did dfltSection).sh_addr =
            (app.sections.getD sid dfltSection).sh_addr) →
        ∀ sid did, SectionMap.find section_map sid = some did →
          tokF ≠ some did →
          (out.1.getD did dfltSection).sh_addr =
            (app.sections.getD sid dfltSection).sh_addr) := by
  intro sids
  induction sids with
  | nil =>
    intro secs seg out h
    injection h with h'
    subst h'
    exact ⟨rfl, rfl, rfl, fun hP => hP⟩
  | cons sid0 rest ih =>
    intro secs seg out h
    rw [goSegmentSections] at h
    cases hstep : stepSegmentSection recalc app section_map (secs, seg) sid0 with
    | error e => rw [hstep, bind_error_eq] at h; cases h
    | ok out1 =>
      rw [hstep, bind_ok_eq] at h
      obtain ⟨did0, hf0, hout1⟩ :=
        stepSegmentSection_spec recalc app section_map secs seg sid0 out1 hstep
      subst hout1
      obtain ⟨hlen, hva, hpa, hP2⟩ := ih _ _ out h
      refine ⟨hlen.trans (List.length_set _ _ _), hva, hpa, ?_⟩
      intro hP
      apply hP2
      intro sid did hfind hguard
      by_cases hdd : did0 = did
      · subst hdd
        by_cases hl : did0 < secs.length
        · rw [getD_set_eq_of_lt _ _ _ _ hl]
          show (app.sections.getD sid0 dfltSection).sh_addr = _
          by_cases hss : sid0 = sid
          · subst hss
            rfl
          · exfalso
            have hp1 : (sid, did0) ∈ section_map := SectionMap.find_mem hfind
            have hp0 : (sid0, did0) ∈ section_map := SectionMap.find_mem hf0
            exact hguard (HU (sid, did0) hp1 (sid0, did0) hp0 rfl
              (fun hcc => hss hcc.symm))
        · rw [List.set_eq_of_length_le (by omega)]
          exact hP sid did0 hfind hguard
      · rw [getD_set_ne' _ _ _ _ _ hdd]
        exact hP sid did hfind hguard

/-- The segment loop: sections keep their length and restored addresses;
the produced segments are appended after the existing ones and carry the
source load segments' `p_vaddr`/`p_paddr` in order. -/
theorem goSegments_spec (recalc : Segment → Section → Nat) (app : Builder)
    (section_map : SectionMap) (tokF : Option Nat)
    (HU : ∀ p ∈ section_map, ∀ q ∈ section_map, p.2 = q.2 → p.1 ≠ q.1 →
      tokF = some p.2) :
    ∀ (srcSegs : List Segment) (secs : List Section) (segs : List Segment)
      (out : List Section × List Segment),
      goSegments recalc app section_map srcSegs (secs, segs) = Except.ok out →
      out.1.length = secs.length ∧
      (∃ newsegs, out.2 = segs ++ newsegs ∧
        newsegs.map (fun g => (g.p_vaddr, g.p_paddr)) =
          (srcSegs.filter (fun g => g.is_load)).map
            (fun g => (g.p_vaddr, g.p_paddr))) ∧
      ((∀ sid did, SectionMap.find section_map sid = some did →
          tokF ≠ some did →
          (secs.getD did dfltSection).sh_addr =
            (app.sections.getD sid dfltSection).sh_addr) →
        ∀ sid did, SectionMap.find section_map sid = some did →
          tokF ≠ some did →
          (out.1.getD did dfltSection).sh_addr =
            (app.sections.getD sid dfltSection).sh_addr) := by
  intro srcSegs
  induction srcSegs with
  | nil =>
    intro secs segs out h
    injection h with h'
    subst h'
    exact ⟨rfl, ⟨[], by simp, by simp⟩, fun hP => hP⟩
  | cons g rest ih =>
    intro secs segs out h
    rw [goSegments] at h
    cases hsg : stepSegment recalc app section_map (secs, segs) g with
    | error e => rw [hsg, bind_error_eq] at h; cases h
    | ok out1 =>
      rw [hsg, bind_ok_eq] at h
      by_cases hload : g.is_load
      · simp only [stepSegment, hload, Bool.not_true, Bool.false_eq_true,
          if_false] at hsg
        cases hgss : goSegmentSections recalc app section_map g.sections
            (secs, Segment.mk PT_LOAD g.p_flags g.p_align g.p_vaddr
              g.p_paddr []) with
        | error e => rw [hgss, bind_error_eq] at hsg; cases hsg
        | ok p1 =>
          cases p1 with
          | mk secs1 seg1 =>
            rw [hgss, bind_ok_eq] at hsg
            injection hsg with hsg'
            subst hsg'
            obtain ⟨hlen1, hva1, hpa1, hP1⟩ :=
              goSegmentSections_spec recalc app section_map tokF HU g.sections
                secs _ (secs1, seg1) hgss
            obtain ⟨hlen2, ⟨newsegs, hsegs2, hmap2⟩, hP2⟩ := ih secs1 _ out h
            refine ⟨hlen2.trans hlen1, ⟨seg1 :: newsegs, ?_, ?_⟩,
              fun hP => hP2 (hP1 hP)⟩
            · rw [hsegs2]
              simp
            · rw [List.filter_cons_of_pos hload]
              simp only [List.map_cons]
              rw [hmap2, hva1, hpa1]
      · have hl' : g.is_load = false := by simpa using hload
        simp only [stepSegment, hl', Bool.not_false, if_true] at hsg
        injection hsg with hsg'
        subst hsg'
        obtain ⟨hlen2, ⟨newsegs, hsegs2, hmap2⟩, hP2⟩ := ih secs segs out h
        refine ⟨hlen2, ⟨newsegs, hsegs2, ?_⟩, hP2⟩
        rw [List.filter_cons_of_neg hload, hmap2]

end Assembler

namespace Assembler

/-- **C2.** For every app merged by `add_app_image` (with a well-formed
survivor index), every copied loadable segment keeps exactly the source
`p_vaddr`/`p_paddr` (in order), and every section copied to the output (any
non-tokenizer source section that received a mapping) ends the merge with
`sh_addr` equal to the source section's `sh_addr` — the `append_section`
recomputation (arbitrary `recalc`) is undone by the save/restore. -/
theorem C2_address_preservation :
    ∀ (recalc : Segment → Section → Nat) (img : SystemImage) (app : Builder)
      (appName : String) (img' : SystemImage) (section_map : SectionMap),
      (∀ t, img.tokenized_section = some t → t < img.builder.sections.length) →
      add_app_image recalc img app appName = Except.ok (img', section_map) →
      (∃ newsegs,
        img'.builder.segments = img.builder.segments ++ newsegs ∧
        newsegs.map (fun g => (g.p_vaddr, g.p_paddr)) =
          (app.segments.filter (fun g => g.is_load)).map
            (fun g => (g.p_vaddr, g.p_paddr))) ∧
      (∀ sid did, SectionMap.find section_map sid = some did →
        is_tokenizer_section (app.sections.getD sid dfltSection) = false →
        (img'.builder.sections.getD did dfltSection).sh_addr =
          (app.sections.getD sid dfltSection).sh_addr) := by
  intro recalc img app appName img' section_map hwf h
  obtain ⟨img1, b2, b3, hs, hg, hy, himg⟩ :=
    add_app_image_spec recalc img app appName img' section_map h
  obtain ⟨st, hgo, hmap, htok1, hsegs1, hsyms1, hfix⟩ :=
    add_app_sections_spec img app appName img1 section_map hs
  subst hmap
  have hinv0 : SecInv app ⟨img.builder.sections, img.tokenized_section, [], []⟩ := by
    refine ⟨?_, ?_, ?_, ?_, ?_⟩
    · intro p hp; cases hp
    · intro t ht; exact hwf t ht
    · intro p hp; cases hp
    · intro p hp; cases hp
    · intro p hp; cases hp
  obtain ⟨hinv, _⟩ := goSections_inv appName app app.sections 0 _ st hgo (by simp) hinv0
  obtain ⟨I1, I2, I3, I4, I5⟩ := hinv
  obtain ⟨hflen, hfpres⟩ := fixupPass_preserves st.map st.fixups st.secs
    img1.builder.sections hfix
  have hP1 : ∀ sid did, SectionMap.find st.map sid = some did →
      st.tok ≠ some did →
      (img1.builder.sections.getD did dfltSection).sh_addr =
        (app.sections.getD sid dfltSection).sh_addr := by
    intro sid did hfind hguard
    have hmem := SectionMap.find_mem hfind
    have h3 := I3 (sid, did) hmem hguard
    rw [(hfpres did dfltSection).1]
    exact h3
  obtain ⟨secs2, segs2, hgseg, hb2⟩ :=
    add_app_segments_spec recalc img1.builder app st.map b2 hg
  obtain ⟨hlen2, hnewsegs, hPseg⟩ :=
    goSegments_spec recalc app st.map st.tok I4 app.segments
      img1.builder.sections img1.builder.segments (secs2, segs2) hgseg
  obtain ⟨newSyms, hgos, hb3⟩ := add_app_symbols_spec b2 app appName st.map b3 hy
  have e1 : img'.builder.segments = segs2 := by rw [himg, hb3, hb2]
  have e2 : img'.builder.sections = secs2 := by rw [himg, hb3, hb2]
  constructor
  · obtain ⟨newsegs, hout2, hmapeq⟩ := hnewsegs
    refine ⟨newsegs, ?_, hmapeq⟩
    have hout2' : segs2 = img1.builder.segments ++ newsegs := hout2
    rw [e1, hout2', hsegs1]
  · intro sid did hfind htokf
    have hguard : st.tok ≠ some did := by
      intro hcon
      have hmem := SectionMap.find_mem hfind
      have h5 := I5 (sid, did) hmem hcon
      rw [htokf] at h5
      cases h5
    have hres := hPseg hP1 sid did hfind hguard
    rw [e2]
    exact hres

end Assembler

namespace Assembler

/-- **C2 witness.** Merging the concrete app `exApp` (one allocatable code
section at `sh_addr = 0x40420` inside a load segment at
`p_vaddr = p_paddr = 0x40000`) into an empty kernel image succeeds, and
`C2_address_preservation` applies: the copied load segment keeps its
addresses and every mapped non-tokenizer section keeps its `sh_addr`. -/
theorem C2_witness :
    ∃ img' section_map,
      add_app_image recalcVaddr (newSystemImage exEmptyKernel) exApp "app_0" =
        Except.ok (img', section_map) ∧
      (∃ newsegs,
        img'.builder.segments =
          (newSystemImage exEmptyKernel).builder.segments ++ newsegs ∧
        newsegs.map (fun g => (g.p_vaddr, g.p_paddr)) =
          (exApp.segments.filter (fun g => g.is_load)).map
            (fun g => (g.p_vaddr, g.p_paddr))) ∧
      (∀ sid did, SectionMap.find section_map sid = some did →
        is_tokenizer_section (exApp.sections.getD sid dfltSection) = false →
        (img'.builder.sections.getD did dfltSection).sh_addr =
          (exApp.sections.getD sid dfltSection).sh_addr) := by
  cases hok : add_app_image recalcVaddr (newSystemImage exEmptyKernel) exApp "app_0" with
  | error e =>
      have hisok : (add_app_image recalcVaddr (newSystemImage exEmptyKernel)
          exApp "app_0").isOk = true := by rfl
      rw [hok] at hisok
      simp [Except.isOk, Except.toBool] at hisok
  | ok pr =>
      obtain ⟨img', m⟩ := pr
      exact ⟨img', m, rfl,
        C2_address_preservation recalcVaddr (newSystemImage exEmptyKernel) exApp
          "app_0" img' m (fun t ht => nomatch ht) hok⟩

end Assembler

namespace Assembler

/-- Wrapping-add of a wrapping-difference cancels below `2^64`. -/
theorem wadd_wsub_cancel (x v : Nat) (hv : v < U64) : wadd x (wsub v x) = v := by
  have h64 : U64 = 18446744073709551616 := by norm_num [U64]
  simp only [wadd, wsub, h64] at hv ⊢
  omega

/-- `st_value` of a section-attached symbol whose section is mapped: the
offset inside the old section is rebased onto the new section. -/
theorem stepSymbol_value_section (app : Builder) (appName : String)
    (section_map : SectionMap) (secs : List Section) (sym s' : Symbol)
    (sid did : Nat) (hsec : sym.sectionRef = some sid)
    (hfind : SectionMap.find section_map sid = some did)
    (h : stepSymbol app appName section_map secs sym = Except.ok s') :
    s'.st_value =
      wadd (secs.getD did dfltSection).sh_addr
        (wsub sym.st_value (app.sections.getD sid dfltSection).sh_addr) := by
  unfold stepSymbol get_mapped_section_id at h
  rw [hsec] at h
  dsimp only at h
  rw [hfind] at h
  dsimp only at h
  rw [bind_ok_eq] at h
  dsimp only at h
  rw [pure_bind_eq] at h
  injection h with h'
  rw [← h']

/-- `st_value` of a symbol with no associated section is whatever the
absolute-address scan returns. -/
theorem stepSymbol_value_absolute (app : Builder) (appName : String)
    (section_map : SectionMap) (secs : List Section) (sym s' : Symbol)
    (hsec : sym.sectionRef = none)
    (h : stepSymbol app appName section_map secs sym = Except.ok s') :
    scanAbsolute section_map secs sym.st_value 0 app.sections =
      Except.ok s'.st_value := by
  unfold stepSymbol at h
  rw [hsec] at h
  dsimp only at h
  cases hscan : scanAbsolute section_map secs sym.st_value 0 app.sections with
  | error e => rw [hscan, bind_error_eq] at h; cases h
  | ok v =>
    rw [hscan, bind_ok_eq] at h
    injection h with h'
    rw [← h']

end Assembler

namespace Assembler

/-- The absolute-symbol scan skips a section that does not contain the
value. -/
theorem scanAbsolute_skip (section_map : SectionMap) (secs : List Section)
    (v : Nat) (s : Section) (rest : List Section) (idx : Nat)
    (hnot : ¬ hitsSection v s) :
    scanAbsolute section_map secs v idx (s :: rest) =
      scanAbsolute section_map secs v (idx + 1) rest := by
  rw [scanAbsolute]
  cases halloc : s.is_alloc with
  | false => simp [halloc]
  | true =>
    rcases Nat.eq_zero_or_pos s.sh_size with hsz | hsz
    · simp [halloc, hsz]
    · have hszne : s.sh_size ≠ 0 := Nat.pos_iff_ne_zero.mp hsz
      have hrange : v < s.sh_addr ∨ wadd s.sh_addr s.sh_size ≤ v := by
        by_contra hc
        push_neg at hc
        exact hnot ⟨halloc, hszne, hc.1, hc.2⟩
      rcases hrange with h | h
      · simp [halloc, hszne, h]
      · simp [halloc, hszne, h]

/-- The absolute-symbol scan leaves the value unchanged when no allocatable
non-empty section contains it. -/
theorem scanAbsolute_nohit (section_map : SectionMap) (secs : List Section)
    (v : Nat) :
    ∀ (rest : List Section) (idx : Nat),
      (∀ s ∈ rest, ¬ hitsSection v s) →
      scanAbsolute section_map secs v idx rest = Except.ok v := by
  intro rest
  induction rest with
  | nil => intro idx _; rfl
  | cons s rest' ih =>
    intro idx hno
    rw [scanAbsolute_skip section_map secs v s rest' idx
      (hno s (List.mem_cons_self s rest'))]
    exact ih (idx + 1) (fun t ht => hno t (List.mem_cons_of_mem s ht))

/-- A successful absolute-symbol scan, when the value lies inside the first
hit section at relative index `k`, rebases the value onto that section's
mapped copy. -/
theorem scanAbsolute_hit (section_map : SectionMap) (secs : List Section)
    (v : Nat) :
    ∀ (rest : List Section) (idx : Nat) (k : Nat) (out : Nat),
      scanAbsolute section_map secs v idx rest = Except.ok out →
      k < rest.length →
      hitsSection v (rest.getD k dfltSection) →
      (∀ k', k' < k → ¬ hitsSection v (rest.getD k' dfltSection)) →
      ∃ did, SectionMap.find section_map (idx + k) = some did ∧
        out = wadd (secs.getD did dfltSection).sh_addr
          (wsub v (rest.getD k dfltSection).sh_addr) := by
  intro rest
  induction rest with
  | nil =>
    intro idx k out _ hk
    exact absurd hk (by simp)
  | cons s rest' ih =>
    intro idx k out h hk hhit hfirst
    cases k with
    | zero =>
      have hhit0 : hitsSection v s := by simpa [List.getD] using hhit
      obtain ⟨halloc, hszne, hle, hlt⟩ := hhit0
      rw [scanAbsolute] at h
      have hc1 : (!s.is_alloc) = false := by rw [halloc]; rfl
      have hc2 : (s.sh_size == 0) = false := by simp [hszne]
      have hc3 : (decide (v < s.sh_addr) || decide (v ≥ wadd s.sh_addr s.sh_size)) = false := by
        simp [Nat.not_lt_of_le hle, Nat.not_le_of_lt hlt, Nat.lt_of_lt_of_le]
      simp only [hc1, Bool.false_eq_true, if_false, hc2, hc3] at h
      unfold get_mapped_section_id at h
      cases hf : SectionMap.find section_map idx with
      | none =>
        rw [hf] at h
        dsimp only at h
        rw [bind_error_eq] at h
        cases h
      | some did =>
        rw [hf] at h
        dsimp only at h
        rw [bind_ok_eq] at h
        dsimp only at h
        injection h with h'
        refine ⟨did, ?_, ?_⟩
        · rw [Nat.add_zero]; exact hf
        · rw [← h']; simp [List.getD]
    | succ k0 =>
      have hnot : ¬ hitsSection v s := by
        have h0 := hfirst 0 (Nat.succ_pos k0)
        simpa [List.getD] using h0
      rw [scanAbsolute_skip section_map secs v s rest' idx hnot] at h
      have hk' : k0 < rest'.length := by simpa using Nat.lt_of_succ_lt_succ hk
      have hhit' : hitsSection v (rest'.getD k0 dfltSection) := by
        simpa [List.getD] using hhit
      have hfirst' : ∀ k', k' < k0 → ¬ hitsSection v (rest'.getD k' dfltSection) := by
        intro k' hk'lt
        have hf0 := hfirst (k' + 1) (Nat.succ_lt_succ hk'lt)
        simpa [List.getD] using hf0
      obtain ⟨did, hfind, hout⟩ := ih (idx + 1) k0 out h hk' hhit' hfirst'
      refine ⟨did, ?_, ?_⟩
      · have harith : idx + (k0 + 1) = idx + 1 + k0 := by omega
        rw [harith]
        exact hfind
      · rw [hout]
        simp [List.getD]

end Assembler

namespace Assembler

/-- `getD` past an appended prefix. -/
theorem getD_append_add {α : Type} (a b : List α) (j : Nat) (d : α) :
    (a ++ b).getD (a.length + j) d = b.getD j d := by
  simp only [List.getD]
  rw [List.get?_append_right (by omega)]
  have harith : a.length + j - a.length = j := by omega
  rw [harith]

/-- Joint shape of a successful `add_app_image`: the output symbols extend
the kernel's by the translated app symbols (computed against the final
section arena), and every mapped non-tokenizer destination keeps the source
`sh_addr`. -/
theorem add_app_image_pipeline (recalc : Segment → Section → Nat)
    (img : SystemImage) (app : Builder) (appName : String)
    (img' : SystemImage) (section_map : SectionMap)
    (hwf : ∀ t, img.tokenized_section = some t → t < img.builder.sections.length)
    (h : add_app_image recalc img app appName = Except.ok (img', section_map)) :
    ∃ newSyms,
      img'.builder.symbols = img.builder.symbols ++ newSyms ∧
      goSymbols app appName section_map img'.builder.sections app.symbols =
        Except.ok newSyms ∧
      (∀ sid did, SectionMap.find section_map sid = some did →
        is_tokenizer_section (app.sections.getD sid dfltSection) = false →
        (img'.builder.sections.getD did dfltSection).sh_addr =
          (app.sections.getD sid dfltSection).sh_addr) := by
  obtain ⟨img1, b2, b3, hs, hg, hy, himg⟩ :=
    add_app_image_spec recalc img app appName img' section_map h
  obtain ⟨st, hgo, hmap, htok1, hsegs1, hsyms1, hfix⟩ :=
    add_app_sections_spec img app appName img1 section_map hs
  subst hmap
  have hinv0 : SecInv app ⟨img.builder.sections, img.tokenized_section, [], []⟩ := by
    refine ⟨?_, ?_, ?_, ?_, ?_⟩
    · intro p hp; cases hp
    · intro t ht; exact hwf t ht
    · intro p hp; cases hp
    · intro p hp; cases hp
    · intro p hp; cases hp
  obtain ⟨hinv, _⟩ := goSections_inv appName app app.sections 0 _ st hgo (by simp) hinv0
  obtain ⟨I1, I2, I3, I4, I5⟩ := hinv
  obtain ⟨hflen, hfpres⟩ := fixupPass_preserves st.map st.fixups st.secs
    img1.builder.sections hfix
  have hP1 : ∀ sid did, SectionMap.find st.map sid = some did →
      st.tok ≠ some did →
      (img1.builder.sections.getD did dfltSection).sh_addr =
        (app.sections.getD sid dfltSection).sh_addr := by
    intro sid did hfind hguard
    have hmem := SectionMap.find_mem hfind
    have h3 := I3 (sid, did) hmem hguard
    rw [(hfpres did dfltSection).1]
    exact h3
  obtain ⟨secs2, segs2, hgseg, hb2⟩ :=
    add_app_segments_spec recalc img1.builder app st.map b2 hg
  obtain ⟨hlen2, hnewsegs, hPseg⟩ :=
    goSegments_spec recalc app st.map st.tok I4 app.segments
      img1.builder.sections img1.builder.segments (secs2, segs2) hgseg
  obtain ⟨newSyms, hgos, hb3⟩ := add_app_symbols_spec b2 app appName st.map b3 hy
  have e2 : img'.builder.sections = secs2 := by rw [himg, hb3, hb2]
  have e3 : img'.builder.symbols = img.builder.symbols ++ newSyms := by
    rw [himg, hb3, hb2]
    show img1.builder.symbols ++ newSyms = _
    rw [hsyms1]
  have e4 : b2.sections = secs2 := by rw [hb2]
  refine ⟨newSyms, e3, ?_, ?_⟩
  · rw [e2]
    rw [e4] at hgos
    exact hgos
  · intro sid did hfind htokf
    have hguard : st.tok ≠ some did := by
      intro hcon
      have hmem := SectionMap.find_mem hfind
      have h5 := I5 (sid, did) hmem hcon
      rw [htokf] at h5
      cases h5
    have hres := hPseg hP1 sid did hfind hguard
    rw [e2]
    exact hres

end Assembler

namespace Assembler

/-- **C3.** Symbol-value translation across `add_app_image`: each app symbol
yields one output symbol appended after the kernel's. If the symbol's source
section is mapped, the output `st_value` is
`new_section.sh_addr + (old_value − old_section.sh_addr)` (wrapping u64),
which for non-tokenizer sections (whose `sh_addr` is preserved) equals the
input `st_value`. A symbol with no associated section keeps its value when
no allocatable non-empty source section contains it, and is rebased onto
the mapped copy of the first containing section otherwise. -/
theorem C3_symbol_value_translation :
    ∀ (recalc : Segment → Section → Nat) (img : SystemImage) (app : Builder)
      (appName : String) (img' : SystemImage) (section_map : SectionMap),
      (∀ t, img.tokenized_section = some t → t < img.builder.sections.length) →
      add_app_image recalc img app appName = Except.ok (img', section_map) →
      ∃ newSyms,
        img'.builder.symbols = img.builder.symbols ++ newSyms ∧
        newSyms.length = app.symbols.length ∧
        ∀ j, j < app.symbols.length →
          (∀ sid did,
            (app.symbols.getD j dfltSymbol).sectionRef = some sid →
            SectionMap.find section_map sid = some did →
            (newSyms.getD j dfltSymbol).st_value =
              wadd (img'.builder.sections.getD did dfltSection).sh_addr
                (wsub (app.symbols.getD j dfltSymbol).st_value
                  (app.sections.getD sid dfltSection).sh_addr) ∧
            (is_tokenizer_section (app.sections.getD sid dfltSection) = false →
              (app.symbols.getD j dfltSymbol).st_value < U64 →
              (newSyms.getD j dfltSymbol).st_value =
                (app.symbols.getD j dfltSymbol).st_value)) ∧
          ((app.symbols.getD j dfltSymbol).sectionRef = none →
            ((∀ s ∈ app.sections,
                ¬ hitsSection (app.symbols.getD j dfltSymbol).st_value s) →
              (newSyms.getD j dfltSymbol).st_value =
                (app.symbols.getD j dfltSymbol).st_value) ∧
            (∀ k, k < app.sections.length →
              hitsSection (app.symbols.getD j dfltSymbol).st_value
                (app.sections.getD k dfltSection) →
              (∀ k', k' < k →
                ¬ hitsSection (app.symbols.getD j dfltSymbol).st_value
                  (app.sections.getD k' dfltSection)) →
              ∃ did, SectionMap.find section_map k = some did ∧
                (newSyms.getD j dfltSymbol).st_value =
                  wadd (img'.builder.sections.getD did dfltSection).sh_addr
                    (wsub (app.symbols.getD j dfltSymbol).st_value
                      (app.sections.getD k dfltSection).sh_addr))) := by
  intro recalc img app appName img' section_map hwf h
  obtain ⟨newSyms, hsyms, hgos, hpres⟩ :=
    add_app_image_pipeline recalc img app appName img' section_map hwf h
  obtain ⟨hlen, hstep⟩ :=
    goSymbols_ok_spec app appName section_map img'.builder.sections
      app.symbols newSyms hgos
  refine ⟨newSyms, hsyms, hlen, ?_⟩
  intro j hj
  have hstepj := hstep j hj
  constructor
  · intro sid did hsec hfind
    have hval := stepSymbol_value_section app appName section_map
      img'.builder.sections (app.symbols.getD j dfltSymbol)
      (newSyms.getD j dfltSymbol) sid did hsec hfind hstepj
    refine ⟨hval, ?_⟩
    intro htokf hlt
    rw [hval, hpres sid did hfind htokf]
    exact wadd_wsub_cancel _ _ hlt
  · intro hsec
    have hscan := stepSymbol_value_absolute app appName section_map
      img'.builder.sections (app.symbols.getD j dfltSymbol)
      (newSyms.getD j dfltSymbol) hsec hstepj
    constructor
    · intro hnone
      have h2 := scanAbsolute_nohit section_map img'.builder.sections
        (app.symbols.getD j dfltSymbol).st_value app.sections 0 hnone
      rw [h2] at hscan
      injection hscan with h'
      exact h'.symm
    · intro k hk hhit hfirst
      obtain ⟨did, hfind, hout⟩ := scanAbsolute_hit section_map
        img'.builder.sections (app.symbols.getD j dfltSymbol).st_value
        app.sections 0 k ((newSyms.getD j dfltSymbol).st_value)
        hscan hk hhit hfirst
      refine ⟨did, ?_, hout⟩
      simpa using hfind

end Assembler

namespace Assembler

/-- **C3 witness.** On the concrete merge of `exApp` (a global symbol
attached to the mapped code section, plus an absolute symbol whose value
falls inside it) into an empty kernel, `C3_symbol_value_translation`
applies. -/
theorem C3_witness :
    ∃ img' section_map newSyms,
      add_app_image recalcVaddr (newSystemImage exEmptyKernel) exApp "app_0" =
        Except.ok (img', section_map) ∧
      img'.builder.symbols =
        (newSystemImage exEmptyKernel).builder.symbols ++ newSyms ∧
      newSyms.length = exApp.symbols.length ∧
      ∀ j, j < exApp.symbols.length →
        (∀ sid did,
          (exApp.symbols.getD j dfltSymbol).sectionRef = some sid →
          SectionMap.find section_map sid = some did →
          (newSyms.getD j dfltSymbol).st_value =
            wadd (img'.builder.sections.getD did dfltSection).sh_addr
              (wsub (exApp.symbols.getD j dfltSymbol).st_value
                (exApp.sections.getD sid dfltSection).sh_addr) ∧
          (is_tokenizer_section (exApp.sections.getD sid dfltSection) = false →
            (exApp.symbols.getD j dfltSymbol).st_value < U64 →
            (newSyms.getD j dfltSymbol).st_value =
              (exApp.symbols.getD j dfltSymbol).st_value)) ∧
        ((exApp.symbols.getD j dfltSymbol).sectionRef = none →
          ((∀ s ∈ exApp.sections,
              ¬ hitsSection (exApp.symbols.getD j dfltSymbol).st_value s) →
            (newSyms.getD j dfltSymbol).st_value =
              (exApp.symbols.getD j dfltSymbol).st_value) ∧
          (∀ k, k < exApp.sections.length →
            hitsSection (exApp.symbols.getD j dfltSymbol).st_value
              (exApp.sections.getD k dfltSection) →
            (∀ k', k' < k →
              ¬ hitsSection (exApp.symbols.getD j dfltSymbol).st_value
                (exApp.sections.getD k' dfltSection)) →
            ∃ did, SectionMap.find section_map k = some did ∧
              (newSyms.getD j dfltSymbol).st_value =
                wadd (img'.builder.sections.getD did dfltSection).sh_addr
                  (wsub (exApp.symbols.getD j dfltSymbol).st_value
                    (exApp.sections.getD k dfltSection).sh_addr))) := by
  cases hok : add_app_image recalcVaddr (newSystemImage exEmptyKernel) exApp "app_0" with
  | error e =>
      have hisok : (add_app_image recalcVaddr (newSystemImage exEmptyKernel)
          exApp "app_0").isOk = true := by rfl
      rw [hok] at hisok
      simp [Except.isOk, Except.toBool] at hisok
  | ok pr =>
      obtain ⟨img', m⟩ := pr
      obtain ⟨newSyms, h1, h2, h3⟩ :=
        C3_symbol_value_translation recalcVaddr (newSystemImage exEmptyKernel)
          exApp "app_0" img' m (fun t ht => nomatch ht) hok
      exact ⟨img', m, newSyms, rfl, h1, h2, h3⟩

end Assembler

namespace Assembler

/-- A tokenizer section's name (which starts with `.pw_tokenizer.`) is never
one of the skipped special sections. -/
theorem tok_not_skipped (s : Section) (h : is_tokenizer_section s = true) :
    SKIPPED_APP_SECTIONS.contains s.name = false := by
  unfold is_tokenizer_section at h
  cases hb : s.is_alloc with
  | true => rw [hb] at h; simp at h
  | false =>
    rw [hb] at h
    simp only [Bool.false_eq_true, if_false] at h
    by_contra hc
    have hc' : SKIPPED_APP_SECTIONS.contains s.name = true := by
      cases hx : SKIPPED_APP_SECTIONS.contains s.name
      · exact absurd hx hc
      · rfl
    have hmem : s.name ∈ SKIPPED_APP_SECTIONS := by
      simpa using hc'
    simp only [SKIPPED_APP_SECTIONS, List.mem_cons, List.mem_singleton] at hmem
    rcases hmem with h1 | h1 | h1 | h1
    · rw [h1] at h; exact absurd h (by decide)
    · rw [h1] at h; exact absurd h (by decide)
    · rw [h1] at h; exact absurd h (by decide)
    · cases h1

/-- `copy_section` preserves the payload bytes. -/
theorem copy_section_rawBytes (section_map : SectionMap) (src : Section)
    (dstName : String) (dst : Section)
    (h : copy_section section_map src dstName = Except.ok dst) :
    rawBytes dst.data = rawBytes src.data := by
  unfold copy_section at h
  cases hd : src.data <;> rw [hd] at h <;> try dsimp only at h
  case raw bytes =>
    rw [bind_ok_eq] at h
    injection h with h'
    rw [← h']
  case uninit n =>
    rw [bind_ok_eq] at h
    injection h with h'
    rw [← h']
  case attributes tagIds =>
    cases hr : remapTagIds section_map tagIds with
    | error e => rw [hr, bind_error_eq] at h; cases h
    | ok ids =>
      rw [hr, bind_ok_eq] at h
      try dsimp only at h
      rw [bind_ok_eq] at h
      injection h with h'
      rw [← h']
      rfl
  case marker =>
    rw [bind_ok_eq] at h
    injection h with h'
    rw [← h']
  case unsupportedData =>
    rw [bind_error_eq] at h
    cases h

/-- `copy_section` makes a section whose tokenizer-ness is that of the
source renamed to the destination name. -/
theorem is_tokenizer_copy_eq (section_map : SectionMap) (src : Section)
    (dstName : String) (dst : Section)
    (h : copy_section section_map src dstName = Except.ok dst) :
    is_tokenizer_section dst =
      is_tokenizer_section { src with name := dstName } := by
  obtain ⟨hn, _, hf, _⟩ := copy_section_spec section_map src dstName dst h
  unfold is_tokenizer_section Section.is_alloc
  rw [hn, hf]

end Assembler

namespace Assembler

/-- Tokenizer bytes of a list headed by a tokenizer section. -/
theorem tokBytesList_cons_tok (s : Section) (l : List Section)
    (h : is_tokenizer_section s = true) :
    tokBytesList (s :: l) = rawBytes s.data ++ tokBytesList l := by
  simp [tokBytesList, h]

/-- Tokenizer bytes of a list headed by a non-tokenizer section. -/
theorem tokBytesList_cons_not (s : Section) (l : List Section)
    (h : is_tokenizer_section s = false) :
    tokBytesList (s :: l) = tokBytesList l := by
  simp [tokBytesList, h]

/-- Tokenizer size of a list headed by a tokenizer section. -/
theorem tokSizeList_cons_tok (s : Section) (l : List Section)
    (h : is_tokenizer_section s = true) :
    tokSizeList (s :: l) = s.sh_size + tokSizeList l := by
  simp [tokSizeList, h]

/-- Tokenizer size of a list headed by a non-tokenizer section. -/
theorem tokSizeList_cons_not (s : Section) (l : List Section)
    (h : is_tokenizer_section s = false) :
    tokSizeList (s :: l) = tokSizeList l := by
  simp [tokSizeList, h]

/-- A lookup misses when every key is below the probe. -/
theorem SectionMap.find_none_of_keys_lt (m : SectionMap) (i : Nat)
    (hk : ∀ p ∈ m, p.1 < i) : SectionMap.find m i = none := by
  unfold SectionMap.find
  cases hf : m.find? (fun p => p.1 == i) with
  | none => rfl
  | some p =>
    have hmem := List.mem_of_find?_eq_some hf
    have hbeq := List.find?_some hf
    have hpi : p.1 = i := by simpa using hbeq
    exact absurd (hk p hmem) (by omega)

/-- A successful lookup survives appending more entries. -/
theorem SectionMap.find_prefix (m tail : SectionMap) (k v : Nat)
    (h : SectionMap.find m k = some v) :
    SectionMap.find (m ++ tail) k = some v := by
  rw [SectionMap.find_append, h]
  rfl

/-- Looking up a freshly appended key. -/
theorem SectionMap.find_snoc_self (m : SectionMap) (i t : Nat)
    (hnone : SectionMap.find m i = none) :
    SectionMap.find (m ++ [(i, t)]) i = some t := by
  rw [SectionMap.find_snoc, hnone]
  simp

end Assembler

namespace Assembler

/-- Tokenizer bookkeeping through the section-merge loop: the survivor
accumulates exactly the tokenizer bytes and sizes of the processed sections,
stays unique, and every tokenizer source index is mapped to it. -/
theorem goSections_tok (appName : String) :
    ∀ (rest : List Section) (i : Nat) (st st' : MergeSt) (D : List Nat) (S : Nat),
      goSections appName i rest st = Except.ok st' →
      TokView st.secs st.tok D S →
      (∀ s ∈ rest, is_tokenizer_section s = false →
        is_tokenizer_section { s with name := s.name ++ "." ++ appName } = false) →
      (∀ p ∈ st.map, p.1 < i) →
      TokView st'.secs st'.tok (D ++ tokBytesList rest) (S + tokSizeList rest) ∧
      (∃ tail, st'.map = st.map ++ tail) ∧
      (∀ t, st.tok = some t → st'.tok = some t) ∧
      (∀ p ∈ st'.map, p.1 < i + rest.length) ∧
      (∀ k, k < rest.length →
        is_tokenizer_section (rest.getD k dfltSection) = true →
        ∃ t, st'.tok = some t ∧ SectionMap.find st'.map (i + k) = some t) := by
  intro rest
  induction rest with
  | nil =>
    intro i st st' D S h hview halias hkeys
    injection h with h'
    subst h'
    refine ⟨?_, ⟨[], by simp⟩, fun t ht => ht, ?_, ?_⟩
    · simpa [tokBytesList, tokSizeList] using hview
    · intro p hp; simpa using hkeys p hp
    · intro k hk; exact absurd hk (by simp)
  | cons s rest' ih =>
    intro i st st' D S h hview halias hkeys
    rw [goSections] at h
    cases hs : stepSection appName st i s with
    | error e => rw [hs, bind_error_eq] at h; cases h
    | ok st1 =>
      rw [hs, bind_ok_eq] at h
      have halias' : ∀ s2 ∈ rest', is_tokenizer_section s2 = false →
          is_tokenizer_section { s2 with name := s2.name ++ "." ++ appName } = false :=
        fun s2 hs2 => halias s2 (List.mem_cons_of_mem s hs2)
      rcases stepSection_cases appName st i s st1 hs with
        ⟨t, db, nb, htokS, htok, hdb, hnb, hst1⟩ |
        ⟨hcont, hor, hst1⟩ |
        ⟨dst, hcont, hor, hcopy, hst1⟩
      · -- tokenizer bytes appended to the existing survivor `t`
        subst hst1
        obtain ⟨htlt, httok, htraw, htsize, htuniq⟩ := hview.2 t htok
        have hdbD : db = D := by
          rw [hdb] at htraw
          simpa [rawBytes] using htraw
        have hsraw : rawBytes s.data = nb := by rw [hnb]; rfl
        have hview1 : TokView (st.secs.set t
            { st.secs.getD t dfltSection with
              sh_size := (st.secs.getD t dfltSection).sh_size + s.sh_size,
              data := SectionData.raw (db ++ nb) }) st.tok
            (D ++ rawBytes s.data) (S + s.sh_size) := by
          constructor
          · intro hn; rw [htok] at hn; cases hn
          · intro t' ht'
            rw [htok] at ht'
            injection ht' with ht''
            subst ht''
            refine ⟨?_, ?_, ?_, ?_, ?_⟩
            · simpa using htlt
            · rw [getD_set_eq_of_lt _ _ _ _ htlt]
              simpa [is_tokenizer_section, Section.is_alloc] using httok
            · rw [getD_set_eq_of_lt _ _ _ _ htlt]
              rw [hnb]
              show db ++ nb = D ++ nb
              rw [hdbD]
            · rw [getD_set_eq_of_lt _ _ _ _ htlt]
              show (st.secs.getD t dfltSection).sh_size + s.sh_size = S + s.sh_size
              rw [htsize]
            · intro j hj hjne
              rw [getD_set_ne' _ _ _ _ _ (Ne.symm hjne)]
              exact htuniq j (by simpa using hj) hjne
        have hkeys1 : ∀ p ∈ (st.map ++ [(i, t)]), p.1 < i + 1 := by
          intro p hp
          rcases List.mem_append.mp hp with hp1 | hp2
          · exact Nat.lt_succ_of_lt (hkeys p hp1)
          · simp only [List.mem_singleton] at hp2
            subst hp2
            simp
        obtain ⟨hviewF, hmext, htokmonoF, hkeysF, hmapping⟩ :=
          ih (i + 1) _ st' (D ++ rawBytes s.data) (S + s.sh_size) h hview1 halias' hkeys1
        obtain ⟨tail, htail⟩ := hmext
        refine ⟨?_, ?_, ?_, ?_, ?_⟩
        · rw [tokBytesList_cons_tok s rest' htokS, tokSizeList_cons_tok s rest' htokS]
          rw [← List.append_assoc]
          have harith : S + (s.sh_size + tokSizeList rest') =
              S + s.sh_size + tokSizeList rest' := by omega
          rw [harith]
          exact hviewF
        · refine ⟨(i, t) :: tail, ?_⟩
          rw [htail]
          show (st.map ++ [(i, t)]) ++ tail = st.map ++ ((i, t) :: tail)
          rw [List.append_assoc]
          rfl
        · intro t0 ht0
          exact htokmonoF t0 ht0
        · intro p hp
          have h2 := hkeysF p hp
          simp only [List.length_cons]
          omega
        · intro k hk hktok
          cases k with
          | zero =>
            have hfnone : SectionMap.find st.map i = none :=
              SectionMap.find_none_of_keys_lt st.map i hkeys
            have hf1 : SectionMap.find (st.map ++ [(i, t)]) i = some t :=
              SectionMap.find_snoc_self st.map i t hfnone
            have hf2 : SectionMap.find st'.map i = some t := by
              rw [htail]
              exact SectionMap.find_prefix _ tail i t hf1
            refine ⟨t, htokmonoF t htok, ?_⟩
            rw [Nat.add_zero]
            exact hf2
          | succ k0 =>
            have hk0 : k0 < rest'.length := by simpa using Nat.lt_of_succ_lt_succ hk
            have hktok' : is_tokenizer_section (rest'.getD k0 dfltSection) = true := by
              simpa [List.getD] using hktok
            obtain ⟨tF, htF, hfF⟩ := hmapping k0 hk0 hktok'
            refine ⟨tF, htF, ?_⟩
            have harith : i + (k0 + 1) = i + 1 + k0 := by omega
            rw [harith]
            exact hfF
      · -- skipped special section
        have hts : is_tokenizer_section s = false := by
          cases hts0 : is_tokenizer_section s
          · rfl
          · rw [tok_not_skipped s hts0] at hcont; cases hcont
        rw [hst1] at h
        obtain ⟨hviewF, hmext, htokmonoF, hkeysF, hmapping⟩ :=
          ih (i + 1) st st' D S h hview halias'
            (fun p hp => Nat.lt_succ_of_lt (hkeys p hp))
        refine ⟨?_, hmext, htokmonoF, ?_, ?_⟩
        · rw [tokBytesList_cons_not s rest' hts, tokSizeList_cons_not s rest' hts]
          exact hviewF
        · intro p hp
          have h2 := hkeysF p hp
          simp only [List.length_cons]
          omega
        · intro k hk hktok
          cases k with
          | zero =>
            have hc : is_tokenizer_section s = true := by
              simpa [List.getD] using hktok
            rw [hts] at hc
            cases hc
          | succ k0 =>
            have hk0 : k0 < rest'.length := by simpa using Nat.lt_of_succ_lt_succ hk
            have hktok' : is_tokenizer_section (rest'.getD k0 dfltSection) = true := by
              simpa [List.getD] using hktok
            obtain ⟨tF, htF, hfF⟩ := hmapping k0 hk0 hktok'
            refine ⟨tF, htF, ?_⟩
            have harith : i + (k0 + 1) = i + 1 + k0 := by omega
            rw [harith]
            exact hfF
      · -- fresh copy added at the end of the arena
        cases hts : is_tokenizer_section s with
        | true =>
          have htokn : st.tok = none := by
            rcases hor with h1 | h1
            · rw [hts] at h1; cases h1
            · exact h1
          obtain ⟨hallf, hD, hS⟩ := hview.1 htokn
          have hst1' : st1 = MergeSt.mk (st.secs ++ [dst]) (some st.secs.length)
              (st.map ++ [(i, st.secs.length)])
              (if s.sh_link_section.isSome || s.sh_info_section.isSome
                then st.fixups ++ [st.secs.length] else st.fixups) := by
            rw [hst1]
            simp only [hts, if_true]
          rw [hst1'] at h
          have hrename : (if is_tokenizer_section s then s.name
              else s.name ++ "." ++ appName) = s.name := by
            simp only [hts, if_true]
          rw [hrename] at hcopy
          have hview1 : TokView (st.secs ++ [dst]) (some st.secs.length)
              (D ++ rawBytes s.data) (S + s.sh_size) := by
            constructor
            · intro hn; cases hn
            · intro t' ht'
              injection ht' with ht''
              subst ht''
              refine ⟨?_, ?_, ?_, ?_, ?_⟩
              · simp
              · rw [getD_snoc_len]
                rw [is_tokenizer_copy_eq _ _ _ _ hcopy]
                exact hts
              · rw [getD_snoc_len]
                rw [copy_section_rawBytes _ _ _ _ hcopy]
                rw [hD]
                simp
              · rw [getD_snoc_len]
                obtain ⟨_, _, _, _, _, hsize, _⟩ := copy_section_spec _ _ _ _ hcopy
                rw [hsize, hS]
                simp
              · intro j hj hjne
                have hj' : j < st.secs.length := by
                  simp only [List.length_append, List.length_singleton] at hj
                  omega
                rw [getD_append_left _ _ _ _ hj']
                exact hallf j hj'
          have hkeys1 : ∀ p ∈ (st.map ++ [(i, st.secs.length)]), p.1 < i + 1 := by
            intro p hp
            rcases List.mem_append.mp hp with hp1 | hp2
            · exact Nat.lt_succ_of_lt (hkeys p hp1)
            · simp only [List.mem_singleton] at hp2
              subst hp2
              simp
          obtain ⟨hviewF, hmext, htokmonoF, hkeysF, hmapping⟩ :=
            ih (i + 1) _ st' (D ++ rawBytes s.data) (S + s.sh_size) h hview1
              halias' hkeys1
          obtain ⟨tail, htail⟩ := hmext
          refine ⟨?_, ?_, ?_, ?_, ?_⟩
          · rw [tokBytesList_cons_tok s rest' hts, tokSizeList_cons_tok s rest' hts]
            rw [← List.append_assoc]
            have harith : S + (s.sh_size + tokSizeList rest') =
                S + s.sh_size + tokSizeList rest' := by omega
            rw [harith]
            exact hviewF
          · refine ⟨(i, st.secs.length) :: tail, ?_⟩
            rw [htail]
            show (st.map ++ [(i, st.secs.length)]) ++ tail =
              st.map ++ ((i, st.secs.length) :: tail)
            rw [List.append_assoc]
            rfl
          · intro t0 ht0
            rw [htokn] at ht0
            cases ht0
          · intro p hp
            have h2 := hkeysF p hp
            simp only [List.length_cons]
            omega
          · intro k hk hktok
            cases k with
            | zero =>
              have hfnone : SectionMap.find st.map i = none :=
                SectionMap.find_none_of_keys_lt st.map i hkeys
              have hf1 : SectionMap.find (st.map ++ [(i, st.secs.length)]) i =
                  some st.secs.length :=
                SectionMap.find_snoc_self st.map i st.secs.length hfnone
              have hf2 : SectionMap.find st'.map i = some st.secs.length := by
                rw [htail]
                exact SectionMap.find_prefix _ tail i st.secs.length hf1
              refine ⟨st.secs.length, htokmonoF st.secs.length rfl, ?_⟩
              rw [Nat.add_zero]
              exact hf2
            | succ k0 =>
              have hk0 : k0 < rest'.length := by simpa using Nat.lt_of_succ_lt_succ hk
              have hktok' : is_tokenizer_section (rest'.getD k0 dfltSection) = true := by
                simpa [List.getD] using hktok
              obtain ⟨tF, htF, hfF⟩ := hmapping k0 hk0 hktok'
              refine ⟨tF, htF, ?_⟩
              have harith : i + (k0 + 1) = i + 1 + k0 := by omega
              rw [harith]
              exact hfF
        | false =>
          have hst1' : st1 = MergeSt.mk (st.secs ++ [dst]) st.tok
              (st.map ++ [(i, st.secs.length)])
              (if s.sh_link_section.isSome || s.sh_info_section.isSome
                then st.fixups ++ [st.secs.length] else st.fixups) := by
            rw [hst1]
            simp only [hts, Bool.false_eq_true, if_false]
          rw [hst1'] at h
          have hrename : (if is_tokenizer_section s then s.name
              else s.name ++ "." ++ appName) = s.name ++ "." ++ appName := by
            simp only [hts, Bool.false_eq_true, if_false]
          rw [hrename] at hcopy
          have hdstf : is_tokenizer_section dst = false := by
            rw [is_tokenizer_copy_eq _ _ _ _ hcopy]
            exact halias s (List.mem_cons_self s rest') hts
          have hview1 : TokView (st.secs ++ [dst]) st.tok D S := by
            constructor
            · intro hn
              obtain ⟨hallf, hD, hS⟩ := hview.1 hn
              refine ⟨?_, hD, hS⟩
              intro j hj
              rcases Nat.lt_or_ge j st.secs.length with hj' | hj'
              · rw [getD_append_left _ _ _ _ hj']
                exact hallf j hj'
              · have hje : j = st.secs.length := by
                  simp only [List.length_append, List.length_singleton] at hj
                  omega
                rw [hje, getD_snoc_len]
                exact hdstf
            · intro t' ht'
              obtain ⟨htlt, httok, htraw, htsize, htuniq⟩ := hview.2 t' ht'
              refine ⟨?_, ?_, ?_, ?_, ?_⟩
              · simp only [List.length_append, List.length_singleton]
                omega
              · rw [getD_append_left _ _ _ _ htlt]
                exact httok
              · rw [getD_append_left _ _ _ _ htlt]
                exact htraw
              · rw [getD_append_left _ _ _ _ htlt]
                exact htsize
              · intro j hj hjne
                rcases Nat.lt_or_ge j st.secs.length with hj' | hj'
                · rw [getD_append_left _ _ _ _ hj']
                  exact htuniq j hj' hjne
                · have hje : j = st.secs.length := by
                    simp only [List.length_append, List.length_singleton] at hj
                    omega
                  rw [hje, getD_snoc_len]
                  exact hdstf
          have hkeys1 : ∀ p ∈ (st.map ++ [(i, st.secs.length)]), p.1 < i + 1 := by
            intro p hp
            rcases List.mem_append.mp hp with hp1 | hp2
            · exact Nat.lt_succ_of_lt (hkeys p hp1)
            · simp only [List.mem_singleton] at hp2
              subst hp2
              simp
          obtain ⟨hviewF, hmext, htokmonoF, hkeysF, hmapping⟩ :=
            ih (i + 1) _ st' D S h hview1 halias' hkeys1
          obtain ⟨tail, htail⟩ := hmext
          refine ⟨?_, ?_, ?_, ?_, ?_⟩
          · rw [tokBytesList_cons_not s rest' hts, tokSizeList_cons_not s rest' hts]
            exact hviewF
          · refine ⟨(i, st.secs.length) :: tail, ?_⟩
            rw [htail]
            show (st.map ++ [(i, st.secs.length)]) ++ tail =
              st.map ++ ((i, st.secs.length) :: tail)
            rw [List.append_assoc]
            rfl
          · intro t0 ht0
            exact htokmonoF t0 ht0
          · intro p hp
            have h2 := hkeysF p hp
            simp only [List.length_cons]
            omega
          · intro k hk hktok
            cases k with
            | zero =>
              have hc : is_tokenizer_section s = true := by
                simpa [List.getD] using hktok
              rw [hts] at hc
              cases hc
            | succ k0 =>
              have hk0 : k0 < rest'.length := by simpa using Nat.lt_of_succ_lt_succ hk
              have hktok' : is_tokenizer_section (rest'.getD k0 dfltSection) = true := by
                simpa [List.getD] using hktok
              obtain ⟨tF, htF, hfF⟩ := hmapping k0 hk0 hktok'
              refine ⟨tF, htF, ?_⟩
              have harith : i + (k0 + 1) = i + 1 + k0 := by omega
              rw [harith]
              exact hfF

end Assembler

namespace Assembler

/-- Out-of-range `List.set` is the identity. -/
theorem set_oob {α : Type} : ∀ (l : List α) (t : Nat) (v : α),
    l.length ≤ t → l.set t v = l := by
  intro l
  induction l with
  | nil => intro t v _; cases t <;> rfl
  | cons a l' ih =>
    intro t v ht
    cases t with
    | zero => simp at ht
    | succ t0 =>
      show a :: l'.set t0 v = a :: l'
      rw [ih t0 v (by simpa using ht)]

/-- `TokView` only depends on each section's size, name, flags and data. -/
theorem TokView_of_fields (secs secs' : List Section) (tok : Option Nat)
    (D : List Nat) (S : Nat)
    (hlen : secs'.length = secs.length)
    (hf : ∀ j,
      (secs'.getD j dfltSection).sh_size = (secs.getD j dfltSection).sh_size ∧
      (secs'.getD j dfltSection).name = (secs.getD j dfltSection).name ∧
      (secs'.getD j dfltSection).sh_flags = (secs.getD j dfltSection).sh_flags ∧
      (secs'.getD j dfltSection).data = (secs.getD j dfltSection).data)
    (hview : TokView secs tok D S) : TokView secs' tok D S := by
  have htokeq : ∀ j, is_tokenizer_section (secs'.getD j dfltSection) =
      is_tokenizer_section (secs.getD j dfltSection) := by
    intro j
    obtain ⟨_, hn, hfl, _⟩ := hf j
    unfold is_tokenizer_section Section.is_alloc
    rw [hn, hfl]
  constructor
  · intro hn
    obtain ⟨hall, hD, hS⟩ := hview.1 hn
    refine ⟨?_, hD, hS⟩
    intro j hj
    rw [htokeq j]
    exact hall j (by rw [← hlen]; exact hj)
  · intro t ht
    obtain ⟨hlt, htk, hraw, hsz, huniq⟩ := hview.2 t ht
    refine ⟨?_, ?_, ?_, ?_, ?_⟩
    · rw [hlen]; exact hlt
    · rw [htokeq t]; exact htk
    · rw [(hf t).2.2.2]; exact hraw
    · rw [(hf t).1]; exact hsz
    · intro j hj hjne
      rw [htokeq j]
      exact huniq j (by rw [← hlen]; exact hj) hjne

/-- The per-segment inner loop touches only `sh_addr` of the sections. -/
theorem goSegmentSections_fields (recalc : Segment → Section → Nat)
    (app : Builder) (section_map : SectionMap) :
    ∀ (sids : List Nat) (secs : List Section) (seg : Segment)
      (out : List Section × Segment),
      goSegmentSections recalc app section_map sids (secs, seg) = Except.ok out →
      out.1.length = secs.length ∧
      ∀ j,
        (out.1.getD j dfltSection).sh_size = (secs.getD j dfltSection).sh_size ∧
        (out.1.getD j dfltSection).name = (secs.getD j dfltSection).name ∧
        (out.1.getD j dfltSection).sh_flags = (secs.getD j dfltSection).sh_flags ∧
        (out.1.getD j dfltSection).data = (secs.getD j dfltSection).data := by
  intro sids
  induction sids with
  | nil =>
    intro secs seg out h
    injection h with h'
    subst h'
    exact ⟨rfl, fun j => ⟨rfl, rfl, rfl, rfl⟩⟩
  | cons sid rest ih =>
    intro secs seg out h
    rw [goSegmentSections] at h
    cases hstep : stepSegmentSection recalc app section_map (secs, seg) sid with
    | error e => rw [hstep, bind_error_eq] at h; cases h
    | ok acc1 =>
      rw [hstep, bind_ok_eq] at h
      obtain ⟨did, hfind, hacc1⟩ :=
        stepSegmentSection_spec recalc app section_map secs seg sid acc1 hstep
      subst hacc1
      obtain ⟨hlen, hfields⟩ := ih _ _ out h
      constructor
      · rw [hlen]; simp
      · intro j
        obtain ⟨h1, h2, h3, h4⟩ := hfields j
        rcases Nat.lt_or_ge did secs.length with hdid | hdid
        · by_cases hj : did = j
          · subst hj
            rw [getD_set_eq_of_lt _ _ _ _ hdid] at h1 h2 h3 h4
            exact ⟨h1, h2, h3, h4⟩
          · rw [getD_set_ne' _ _ _ _ _ hj] at h1 h2 h3 h4
            exact ⟨h1, h2, h3, h4⟩
        · rw [set_oob _ _ _ hdid] at h1 h2 h3 h4
          exact ⟨h1, h2, h3, h4⟩

/-- The segment loop touches only `sh_addr` of the sections. -/
theorem goSegments_fields (recalc : Segment → Section → Nat)
    (app : Builder) (section_map : SectionMap) :
    ∀ (srcSegs : List Segment) (secs : List Section) (segs : List Segment)
      (out : List Section × List Segment),
      goSegments recalc app section_map srcSegs (secs, segs) = Except.ok out →
      out.1.length = secs.length ∧
      ∀ j,
        (out.1.getD j dfltSection).sh_size = (secs.getD j dfltSection).sh_size ∧
        (out.1.getD j dfltSection).name = (secs.getD j dfltSection).name ∧
        (out.1.getD j dfltSection).sh_flags = (secs.getD j dfltSection).sh_flags ∧
        (out.1.getD j dfltSection).data = (secs.getD j dfltSection).data := by
  intro srcSegs
  induction srcSegs with
  | nil =>
    intro secs segs out h
    injection h with h'
    subst h'
    exact ⟨rfl, fun j => ⟨rfl, rfl, rfl, rfl⟩⟩
  | cons g rest ih =>
    intro secs segs out h
    rw [goSegments] at h
    cases hload : g.is_load with
    | false =>
      have hl' : g.is_load = false := hload
      cases hstep : stepSegment recalc app section_map (secs, segs) g with
      | error e => rw [hstep, bind_error_eq] at h; cases h
      | ok acc1 =>
        rw [hstep, bind_ok_eq] at h
        have hacc1 : acc1 = (secs, segs) := by
          simp only [stepSegment, hl', Bool.not_false, if_true] at hstep
          injection hstep with h2
          exact h2.symm
        subst hacc1
        exact ih secs segs out h
    | true =>
      cases hstep : stepSegment recalc app section_map (secs, segs) g with
      | error e => rw [hstep, bind_error_eq] at h; cases h
      | ok acc1 =>
        rw [hstep, bind_ok_eq] at h
        simp only [stepSegment, hload, Bool.not_true, Bool.false_eq_true,
          if_false] at hstep
        cases hgss : goSegmentSections recalc app section_map g.sections
            (secs, Segment.mk PT_LOAD g.p_flags g.p_align g.p_vaddr g.p_paddr []) with
        | error e => rw [hgss, bind_error_eq] at hstep; cases hstep
        | ok p =>
          cases p with
          | mk secs1 seg1 =>
            rw [hgss, bind_ok_eq] at hstep
            dsimp only at hstep
            injection hstep with h2
            subst h2
            obtain ⟨hlen1, hf1⟩ :=
              goSegmentSections_fields recalc app section_map g.sections secs _
                (secs1, seg1) hgss
            obtain ⟨hlen2, hf2⟩ := ih secs1 (segs ++ [seg1]) out h
            constructor
            · rw [hlen2]; exact hlen1
            · intro j
              obtain ⟨a1, a2, a3, a4⟩ := hf1 j
              obtain ⟨b1, b2, b3, b4⟩ := hf2 j
              exact ⟨b1.trans a1, b2.trans a2, b3.trans a3, b4.trans a4⟩

end Assembler

namespace Assembler

/-- A successful `findTok` designates the first tokenizer section. -/
theorem findTok_spec : ∀ (l : List Section) (i t : Nat),
    findTok i l = some t →
    ∃ k, k < l.length ∧ t = i + k ∧
      is_tokenizer_section (l.getD k dfltSection) = true ∧
      ∀ j, j < k → is_tokenizer_section (l.getD j dfltSection) = false := by
  intro l
  induction l with
  | nil => intro i t h; cases h
  | cons s l' ih =>
    intro i t h
    rw [findTok] at h
    cases hts : is_tokenizer_section s with
    | true =>
      rw [hts] at h
      simp only [if_true] at h
      injection h with h'
      refine ⟨0, by simp, by omega, by simpa [List.getD] using hts, ?_⟩
      intro j hj
      exact absurd hj (by omega)
    | false =>
      rw [hts] at h
      simp only [Bool.false_eq_true, if_false] at h
      obtain ⟨k, hk, ht, htok, hbefore⟩ := ih (i + 1) t h
      refine ⟨k + 1, by simp only [List.length_cons]; omega, by omega,
        by simpa [List.getD] using htok, ?_⟩
      intro j hj
      cases j with
      | zero => simpa [List.getD] using hts
      | succ j0 =>
        have := hbefore j0 (by omega)
        simpa [List.getD] using this
/-- A failing `findTok` means no tokenizer section at all. -/
theorem findTok_none : ∀ (l : List Section) (i : Nat),
    findTok i l = none →
    ∀ j, j < l.length → is_tokenizer_section (l.getD j dfltSection) = false := by
  intro l
  induction l with
  | nil => intro i _ j hj; exact absurd hj (by simp)
  | cons s l' ih =>
    intro i h j hj
    rw [findTok] at h
    cases hts : is_tokenizer_section s with
    | true => rw [hts] at h; simp at h
    | false =>
      rw [hts] at h
      simp only [Bool.false_eq_true, if_false] at h
      cases j with
      | zero => simpa [List.getD] using hts
      | succ j0 =>
        have hj0 : j0 < l'.length := by
          simp only [List.length_cons] at hj
          omega
        have := ih (i + 1) h j0 hj0
        simpa [List.getD] using this

/-- Pointwise falsity gives member-wise falsity. -/
theorem all_false_of_pointwise {α : Type} (p : α → Bool) (d : α)
    (l : List α) (h : ∀ j, j < l.length → p (l.getD j d) = false) :
    ∀ x ∈ l, p x = false := by
  intro x hx
  obtain ⟨k, hk, hxk⟩ := List.mem_iff_getElem.mp hx
  have h2 := h k hk
  rw [List.getD_eq_getElem?_getD, List.getElem?_eq_getElem hk] at h2
  rw [← hxk]
  simpa using h2

/-- A list with exactly one index satisfying a predicate filters to that
single element. -/
theorem filter_eq_single {α : Type} (p : α → Bool) (d : α) :
    ∀ (l : List α) (t : Nat), t < l.length → p (l.getD t d) = true →
      (∀ j, j < l.length → j ≠ t → p (l.getD j d) = false) →
      l.filter p = [l.getD t d] := by
  intro l
  induction l with
  | nil => intro t ht; exact absurd ht (by simp)
  | cons a l' ih =>
    intro t ht hp hq
    cases t with
    | zero =>
      have hpa : p a = true := by simpa [List.getD] using hp
      have hrest : ∀ j, j < l'.length → p (l'.getD j d) = false := by
        intro j hj
        have := hq (j + 1) (by simp only [List.length_cons]; omega) (by omega)
        simpa [List.getD] using this
      have hmemf := all_false_of_pointwise p d l' hrest
      have hfil : l'.filter p = [] := by
        rw [List.filter_eq_nil_iff]
        intro x hx
        rw [hmemf x hx]
        simp
      rw [List.filter_cons_of_pos hpa, hfil]
      simp [List.getD]
    | succ t0 =>
      have hpa : p a = false := by
        have := hq 0 (by simp) (by omega)
        simpa [List.getD] using this
      have ht0 : t0 < l'.length := by
        simp only [List.length_cons] at ht
        omega
      have hp' : p (l'.getD t0 d) = true := by simpa [List.getD] using hp
      have hq' : ∀ j, j < l'.length → j ≠ t0 → p (l'.getD j d) = false := by
        intro j hj hjne
        have := hq (j + 1) (by simp only [List.length_cons]; omega) (by omega)
        simpa [List.getD] using this
      rw [List.filter_cons_of_neg (by simp [hpa]), ih t0 ht0 hp' hq']
      simp [List.getD]

/-- A fresh system image satisfies the tokenizer invariant provided the
kernel holds at most one tokenizer section. -/
theorem newSystemImage_tokimg (kernel : Builder)
    (HK : ∀ j k, j < kernel.sections.length → k < kernel.sections.length →
      is_tokenizer_section (kernel.sections.getD j dfltSection) = true →
      is_tokenizer_section (kernel.sections.getD k dfltSection) = true → j = k) :
    TokImg (newSystemImage kernel) (tokBytesList kernel.sections)
      (tokSizeList kernel.sections) := by
  show TokView kernel.sections (findTok 0 kernel.sections) _ _
  constructor
  · intro hn
    have hall := findTok_none kernel.sections 0 hn
    have hmemf := all_false_of_pointwise _ dfltSection kernel.sections hall
    have hfil : kernel.sections.filter (fun s => is_tokenizer_section s) = [] := by
      rw [List.filter_eq_nil_iff]
      intro x hx
      rw [hmemf x hx]
      simp
    exact ⟨hall, by simp [tokBytesList, hfil], by simp [tokSizeList, hfil]⟩
  · intro t ht
    obtain ⟨k, hk, htk, htok, hbefore⟩ := findTok_spec kernel.sections 0 t ht
    have hteq : t = k := by omega
    subst hteq
    have huniq : ∀ j, j < kernel.sections.length → j ≠ t →
        is_tokenizer_section (kernel.sections.getD j dfltSection) = false := by
      intro j hj hjne
      cases hjt : is_tokenizer_section (kernel.sections.getD j dfltSection)
      · rfl
      · exact absurd (HK j t hj hk hjt htok) hjne
    have hfil := filter_eq_single (fun s => is_tokenizer_section s) dfltSection
      kernel.sections t hk htok huniq
    refine ⟨hk, htok, ?_, ?_, huniq⟩
    · simp [tokBytesList, hfil]
    · simp [tokSizeList, hfil]

end Assembler

namespace Assembler

/-- Tokenizer bookkeeping across one `add_app_image`: the survivor absorbs
the app's tokenizer bytes and sizes, a survivor never disappears, an app
tokenizer section forces a survivor, and every tokenizer source index maps
to it. -/
theorem add_app_image_tokinv (recalc : Segment → Section → Nat)
    (img : SystemImage) (app : Builder) (appName : String)
    (img' : SystemImage) (section_map : SectionMap) (D : List Nat) (S : Nat)
    (h : add_app_image recalc img app appName = Except.ok (img', section_map))
    (hinv : TokImg img D S)
    (halias : ∀ s ∈ app.sections, is_tokenizer_section s = false →
      is_tokenizer_section { s with name := s.name ++ "." ++ appName } = false) :
    TokImg img' (D ++ tokBytesList app.sections) (S + tokSizeList app.sections) ∧
    (∀ t, img.tokenized_section = some t → img'.tokenized_section ≠ none) ∧
    ((∃ s ∈ app.sections, is_tokenizer_section s = true) →
      img'.tokenized_section ≠ none) ∧
    (∀ k, k < app.sections.length →
      is_tokenizer_section (app.sections.getD k dfltSection) = true →
      ∃ t, img'.tokenized_section = some t ∧
        SectionMap.find section_map k = some t) := by
  obtain ⟨img1, b2, b3, hs, hg, hy, himg⟩ :=
    add_app_image_spec recalc img app appName img' section_map h
  obtain ⟨st, hgo, hmap, htok1, hsegs1, hsyms1, hfix⟩ :=
    add_app_sections_spec img app appName img1 section_map hs
  subst hmap
  obtain ⟨hviewF, _, htokmono, _, hmapping⟩ :=
    goSections_tok appName app.sections 0
      ⟨img.builder.sections, img.tokenized_section, [], []⟩ st D S hgo hinv
      halias (by intro p hp; cases hp)
  obtain ⟨hflen, hfpres⟩ := fixupPass_preserves st.map st.fixups st.secs
    img1.builder.sections hfix
  have hview1 : TokView img1.builder.sections st.tok
      (D ++ tokBytesList app.sections) (S + tokSizeList app.sections) :=
    TokView_of_fields st.secs img1.builder.sections st.tok _ _ hflen
      (fun j =>
        ⟨(hfpres j dfltSection).2.1, (hfpres j dfltSection).2.2.1,
         (hfpres j dfltSection).2.2.2.1, (hfpres j dfltSection).2.2.2.2⟩)
      hviewF
  obtain ⟨secs2, segs2, hgseg, hb2⟩ :=
    add_app_segments_spec recalc img1.builder app st.map b2 hg
  obtain ⟨hslen, hsf⟩ := goSegments_fields recalc app st.map app.segments
    img1.builder.sections img1.builder.segments (secs2, segs2) hgseg
  have hview2 : TokView secs2 st.tok
      (D ++ tokBytesList app.sections) (S + tokSizeList app.sections) :=
    TokView_of_fields img1.builder.sections secs2 st.tok _ _ hslen
      (fun j => hsf j) hview1
  obtain ⟨newSyms, hgos, hb3⟩ := add_app_symbols_spec b2 app appName st.map b3 hy
  have e2 : img'.builder.sections = secs2 := by rw [himg, hb3, hb2]
  have etok : img'.tokenized_section = st.tok := by rw [himg]; exact htok1
  refine ⟨?_, ?_, ?_, ?_⟩
  · unfold TokImg
    rw [e2, etok]
    exact hview2
  · intro t ht
    have h2 := htokmono t ht
    rw [etok, h2]
    intro hc
    cases hc
  · intro hex
    obtain ⟨s0, hmem, hstok⟩ := hex
    obtain ⟨k, hk, hxk⟩ := List.mem_iff_getElem.mp hmem
    have hktok : is_tokenizer_section (app.sections.getD k dfltSection) = true := by
      rw [List.getD_eq_getElem?_getD, List.getElem?_eq_getElem hk]
      simpa [hxk] using hstok
    obtain ⟨t, ht, _⟩ := hmapping k hk hktok
    rw [etok, ht]
    intro hc
    cases hc
  · intro k hk hktok
    obtain ⟨t, ht, hf⟩ := hmapping k hk hktok
    refine ⟨t, ?_, ?_⟩
    · rw [etok]; exact ht
    · simpa using hf

/-- Tokenizer bookkeeping across the whole app loop. -/
theorem assembleLoop_tok (recalc : Segment → Section → Nat) :
    ∀ (apps : List (Builder × String)) (index : Nat) (img img' : SystemImage)
      (D : List Nat) (S : Nat),
      assembleLoop recalc index img apps = Except.ok img' →
      TokImg img D S →
      (∀ a stem, (a, stem) ∈ apps → ∀ s ∈ a.sections,
        is_tokenizer_section s = false →
        ∀ nm : String,
          is_tokenizer_section { s with name := s.name ++ "." ++ nm } = false) →
      TokImg img' (D ++ (apps.map (fun p => tokBytesList p.1.sections)).flatten)
        (S + (apps.map (fun p => tokSizeList p.1.sections)).sum) ∧
      (∀ t, img.tokenized_section = some t → img'.tokenized_section ≠ none) ∧
      ((∃ p ∈ apps, ∃ s ∈ p.1.sections, is_tokenizer_section s = true) →
        img'.tokenized_section ≠ none) := by
  intro apps
  induction apps with
  | nil =>
    intro index img img' D S h hinv halias
    injection h with h'
    subst h'
    refine ⟨by simpa using hinv, ?_, ?_⟩
    · intro t ht
      rw [ht]
      intro hc
      cases hc
    · intro hex
      obtain ⟨p, hp, _⟩ := hex
      cases hp
  | cons pa rest ih =>
    obtain ⟨a, stem⟩ := pa
    intro index img img' D S h hinv halias
    rw [assembleLoop] at h
    cases hok : add_app_image recalc img a (get_app_name stem index) with
    | error e => rw [hok, bind_error_eq] at h; cases h
    | ok pr =>
      obtain ⟨img1, m1⟩ := pr
      rw [hok, bind_ok_eq] at h
      dsimp only at h
      have halias1 : ∀ s ∈ a.sections, is_tokenizer_section s = false →
          is_tokenizer_section
            { s with name := s.name ++ "." ++ get_app_name stem index } = false := by
        intro s hs hf
        exact halias a stem (List.mem_cons_self _ _) s hs hf (get_app_name stem index)
      obtain ⟨hinv1, hmono1, hpres1, _⟩ :=
        add_app_image_tokinv recalc img a (get_app_name stem index) img1 m1 D S
          hok hinv halias1
      have halias' : ∀ a2 stem2, (a2, stem2) ∈ rest → ∀ s ∈ a2.sections,
          is_tokenizer_section s = false →
          ∀ nm : String,
            is_tokenizer_section { s with name := s.name ++ "." ++ nm } = false := by
        intro a2 stem2 hmem
        exact halias a2 stem2 (List.mem_cons_of_mem _ hmem)
      obtain ⟨hinvF, hmonoF, hpresF⟩ :=
        ih (index + 1) img1 img' (D ++ tokBytesList a.sections)
          (S + tokSizeList a.sections) h hinv1 halias'
      refine ⟨?_, ?_, ?_⟩
      · have hb : D ++ tokBytesList a.sections ++
            (rest.map (fun p => tokBytesList p.1.sections)).flatten =
            D ++ (((a, stem) :: rest).map (fun p => tokBytesList p.1.sections)).flatten := by
          simp [List.append_assoc]
        have hs2 : S + tokSizeList a.sections +
            (rest.map (fun p => tokSizeList p.1.sections)).sum =
            S + (((a, stem) :: rest).map (fun p => tokSizeList p.1.sections)).sum := by
          simp
          omega
        rw [← hb, ← hs2]
        exact hinvF
      · intro t ht
        cases htok1 : img1.tokenized_section with
        | none => exact absurd htok1 (hmono1 t ht)
        | some t1 => exact hmonoF t1 htok1
      · intro hex
        obtain ⟨p, hp, hs0⟩ := hex
        rcases List.mem_cons.mp hp with hp1 | hp2
        · subst hp1
          cases htok1 : img1.tokenized_section with
          | none => exact absurd htok1 (hpres1 hs0)
          | some t1 => exact hmonoF t1 htok1
        · exact hpresF ⟨p, hp2, hs0⟩

end Assembler

namespace Assembler

/-- **C6 counterexample.** A kernel that itself carries two tokenizer
sections assembles (with no apps) into an output that still has two
tokenizer sections, refuting "the merged output contains exactly one
tokenizer section" for this input sequence (which does contain tokenizer
sections). -/
theorem C6_counterexample :
    (∃ s ∈ exKernelTwoTok.sections, is_tokenizer_section s = true) ∧
    (assemble recalcVaddr exKernelTwoTok []).map
      (fun img => (tokSections img.builder).length) = Except.ok 2 := by
  constructor
  · exact ⟨exTokSec [1], List.mem_cons_self _ _, by decide⟩
  · rfl

/-- **C6 (amended).** Provided the kernel starts with at most one tokenizer
section and no app section is renamed into a tokenizer alias, a successful
`assemble` of inputs containing at least one tokenizer section yields
exactly one tokenizer section, whose bytes are the concatenation of all
input tokenizer bytes in input order and whose `sh_size` is their sum;
moreover, within each merged app every tokenizer source index is mapped to
the surviving section's index. -/
theorem C6_amended :
    (∀ (recalc : Segment → Section → Nat) (kernel : Builder)
        (apps : List (Builder × String)) (img' : SystemImage),
      (∀ j k, j < kernel.sections.length → k < kernel.sections.length →
        is_tokenizer_section (kernel.sections.getD j dfltSection) = true →
        is_tokenizer_section (kernel.sections.getD k dfltSection) = true →
        j = k) →
      (∀ a stem, (a, stem) ∈ apps → ∀ s ∈ a.sections,
        is_tokenizer_section s = false →
        ∀ nm : String,
          is_tokenizer_section { s with name := s.name ++ "." ++ nm } = false) →
      assemble recalc kernel apps = Except.ok img' →
      (tokSections kernel ≠ [] ∨ ∃ p ∈ apps, tokSections p.1 ≠ []) →
      ∃ t, img'.tokenized_section = some t ∧
        tokSections img'.builder = [img'.builder.sections.getD t dfltSection] ∧
        rawBytes (img'.builder.sections.getD t dfltSection).data =
          tokConcat kernel ++ (apps.map (fun p => tokConcat p.1)).flatten ∧
        (img'.builder.sections.getD t dfltSection).sh_size =
          tokSizeSum kernel + (apps.map (fun p => tokSizeSum p.1)).sum) ∧
    (∀ (recalc : Segment → Section → Nat) (img : SystemImage) (app : Builder)
        (appName : String) (img' : SystemImage) (section_map : SectionMap)
        (D : List Nat) (S : Nat),
      add_app_image recalc img app appName = Except.ok (img', section_map) →
      TokImg img D S →
      (∀ s ∈ app.sections, is_tokenizer_section s = false →
        is_tokenizer_section { s with name := s.name ++ "." ++ appName } = false) →
      ∀ k, k < app.sections.length →
        is_tokenizer_section (app.sections.getD k dfltSection) = true →
        ∃ t, img'.tokenized_section = some t ∧
          SectionMap.find section_map k = some t) := by
  constructor
  · intro recalc kernel apps img' HK HA hok hpresence
    have hinit := newSystemImage_tokimg kernel HK
    obtain ⟨hinvF, hmono, hpres⟩ :=
      assembleLoop_tok recalc apps 0 (newSystemImage kernel) img' _ _ hok hinit HA
    have hne : img'.tokenized_section ≠ none := by
      rcases hpresence with hker | happ
      · cases hft : (newSystemImage kernel).tokenized_section with
        | some t => exact hmono t hft
        | none =>
          have hall := findTok_none kernel.sections 0 hft
          have hmemf := all_false_of_pointwise _ dfltSection kernel.sections hall
          have hfil : kernel.sections.filter (fun s => is_tokenizer_section s) = [] := by
            rw [List.filter_eq_nil_iff]
            intro x hx
            rw [hmemf x hx]
            simp
          exact absurd (show tokSections kernel = [] from hfil) hker
      · obtain ⟨p, hp, hne2⟩ := happ
        have hex : ∃ s ∈ p.1.sections, is_tokenizer_section s = true := by
          by_contra hc
          push_neg at hc
          apply hne2
          show p.1.sections.filter (fun s => is_tokenizer_section s) = []
          rw [List.filter_eq_nil_iff]
          exact hc
        exact hpres ⟨p, hp, hex⟩
    cases htokF : img'.tokenized_section with
    | none => exact absurd htokF hne
    | some t =>
      obtain ⟨hlt, htk, hraw, hsz, huniq⟩ := hinvF.2 t htokF
      refine ⟨t, rfl, ?_, ?_, ?_⟩
      · exact filter_eq_single (fun s => is_tokenizer_section s) dfltSection
          img'.builder.sections t hlt htk huniq
      · exact hraw
      · exact hsz
  · intro recalc img app appName img' section_map D S h hinv halias
    exact (add_app_image_tokinv recalc img app appName img' section_map D S
      h hinv halias).2.2.2

end Assembler

namespace Assembler

/-- **C6 witness.** Assembling the one-tokenizer kernel `exKernelOneTok`
(bytes `[1, 2]`) with the tokenizer-only app `exAppTok` (bytes `[3]`)
succeeds, and `C6_amended` applies: the output holds exactly one tokenizer
section carrying bytes `[1, 2] ++ [3]` with `sh_size` `2 + 1`. -/
theorem C6_witness :
    ∃ img', assemble recalcVaddr exKernelOneTok [(exAppTok, "tok-app")] =
        Except.ok img' ∧
      ∃ t, img'.tokenized_section = some t ∧
        tokSections img'.builder = [img'.builder.sections.getD t dfltSection] ∧
        rawBytes (img'.builder.sections.getD t dfltSection).data =
          tokConcat exKernelOneTok ++
            ([(exAppTok, "tok-app")].map (fun p => tokConcat p.1)).flatten ∧
        (img'.builder.sections.getD t dfltSection).sh_size =
          tokSizeSum exKernelOneTok +
            ([(exAppTok, "tok-app")].map (fun p => tokSizeSum p.1)).sum := by
  cases hok : assemble recalcVaddr exKernelOneTok [(exAppTok, "tok-app")] with
  | error e =>
      have hisok : (assemble recalcVaddr exKernelOneTok
          [(exAppTok, "tok-app")]).isOk = true := by rfl
      rw [hok] at hisok
      simp [Except.isOk, Except.toBool] at hisok
  | ok img' =>
      refine ⟨img', rfl, ?_⟩
      exact C6_amended.1 recalcVaddr exKernelOneTok [(exAppTok, "tok-app")] img'
        (by intro j k hj hk _ _
            simp [exKernelOneTok] at hj hk
            omega)
        (by intro a stem hmem s hs hf nm
            simp only [List.mem_singleton, Prod.mk.injEq] at hmem
            obtain ⟨ha, _⟩ := hmem
            subst ha
            simp only [exAppTok, List.mem_singleton] at hs
            subst hs
            exact absurd hf (by decide))
        hok
        (Or.inl (by decide))

end Assembler
